import Mathlib

/-!
Shallow embedding of the flexible patch engine in `src/code_mcp/edit_utils.py`.

Texts are modelled as `List Char` (abbreviated `Str`).  The Python string and
list operations the source uses (`in`, `str.replace`, `str.splitlines`,
`str.strip`, `str.join`, negative list indexing, `list.pop`, `list.insert`)
are modelled by the `py*` functions below.  Python exceptions are modelled
with `Except PyErr`.  Similarity ratios produced by
`difflib.SequenceMatcher.ratio()` are modelled as exact rationals (the
source compares them with the literal thresholds 0.7/0.8; at every concrete
input used in this development the float and rational comparisons agree).

Recursive functions that witnesses must evaluate are written with explicit
fuel (structural recursion on a `Nat` bound) so that `decide` can reduce
them in the kernel.
-/

abbrev Str := List Char

/-- The six whitespace characters recognised by Python's `str.strip()` /
`str.lstrip()` and by the regex class `\s` on ASCII text.  The model is
restricted to texts without the rarer Unicode whitespace code points. -/
def isPyWs (c : Char) : Bool :=
  c == ' ' || c == '\t' || c == '\n' || c == '\r' || c == Char.ofNat 11 || c == Char.ofNat 12

/-- `text.lstrip()` (drop leading whitespace). -/
def pyLstrip (t : Str) : Str := t.dropWhile isPyWs

/-- `text.rstrip()` (drop trailing whitespace). -/
def pyRstrip (t : Str) : Str := (t.reverse.dropWhile isPyWs).reverse

/-- `text.strip()`. -/
def pyStrip (t : Str) : Str := pyRstrip (pyLstrip t)

/-- `text.strip(chars)` for an explicit strip set. -/
def pyStripSet (set : List Char) (t : Str) : Str :=
  ((t.dropWhile set.contains).reverse.dropWhile set.contains).reverse

/-- `text.rstrip(chars)` for an explicit strip set. -/
def pyRstripSet (set : List Char) (t : Str) : Str :=
  (t.reverse.dropWhile set.contains).reverse

/-- Python's substring test `sub in t` (contiguous substring). -/
def pyContains (t sub : Str) : Bool :=
  match t with
  | [] => sub.isEmpty
  | _ :: rest => sub.isPrefixOf t || pyContains rest sub

/-- Fuel-driven worker for Python's `str.replace` with an optional maximum
replacement count: scans left to right, replacing non-overlapping
occurrences of `s` (nonempty `s` only; the empty-pattern case is handled in
`pyReplace`). -/
def pyReplaceFuel (fuel : Nat) (t s r : Str) (count : Option Nat) : Str :=
  match fuel with
  | 0 => t
  | fuel + 1 =>
    match count with
    | some 0 => t
    | _ =>
      match t with
      | [] => []
      | c :: rest =>
        if s.isPrefixOf t then
          r ++ pyReplaceFuel fuel (t.drop s.length) s r (count.map (· - 1))
        else
          c :: pyReplaceFuel fuel rest s r count

/-- Python `t.replace(s, r)` / `t.replace(s, r, count)`.  For the empty
pattern Python inserts `r` before every character and at the end (subject to
the count). -/
def pyReplace (t s r : Str) (count : Option Nat) : Str :=
  if s.isEmpty then
    match count with
    | none => r ++ t.foldr (fun c acc => c :: r ++ acc) []
    | some n =>
      -- replace the first `n` of the `len+1` empty occurrences
      let rec go (k : Nat) (u : Str) : Str :=
        match u, k with
        | u, 0 => u
        | [], _ + 1 => r
        | c :: rest, k + 1 => r ++ c :: go k rest
      go n t
  else pyReplaceFuel (t.length + 1) t s r count

/-- `t.replace(s, r)` — replace every occurrence. -/
def pyReplaceAll (t s r : Str) : Str := pyReplace t s r none

/-- `t.replace(s, r, 1)` — replace the first occurrence only. -/
def pyReplaceOnce (t s r : Str) : Str := pyReplace t s r (some 1)

/-- `"\n".join(lines)`. -/
def pyJoinNl (lines : List Str) : Str := List.intercalate ['\n'] lines

/-- `text.splitlines()` (without keepends) for texts over `\n`, `\r\n` and
`\r` line breaks (the exotic Unicode line breaks Python also recognises are
outside the model). -/
def pySplitlines (t : Str) : List Str :=
  match t with
  | [] => []
  | _ :: _ =>
    let rec go (cur : Str) (u : Str) : List Str :=
      match u with
      | [] => [cur.reverse]
      | '\n' :: rest => cur.reverse :: go [] rest
      | '\r' :: '\n' :: rest => cur.reverse :: go [] rest
      | '\r' :: rest => cur.reverse :: go [] rest
      | c :: rest => go (c :: cur) rest
    match (go [] t).reverse with
    | [] => []
    | last :: front => if last.isEmpty then front.reverse else (last :: front).reverse

/-- `text.splitlines(keepends=True)` for `\n`-only texts (carriage returns
and exotic breaks are outside this helper's use sites; see the hypotheses of
the round-trip theorem). -/
def pySplitKeepNl (t : Str) : List Str :=
  let rec go (cur : Str) (u : Str) : List Str :=
    match u with
    | [] => if cur.isEmpty then [] else [cur.reverse]
    | '\n' :: rest => ('\n' :: cur).reverse :: go [] rest
    | c :: rest => go (c :: cur) rest
  go [] t

example : pySplitlines "ab\ncd\n".data = ["ab".data, "cd".data] := by decide
example : pySplitlines "ab\n\ncd".data = ["ab".data, [], "cd".data] := by decide
example : pySplitlines "".data = [] := by decide
example : pySplitKeepNl "a\nb".data = ["a\n".data, "b".data] := by decide
example : pySplitKeepNl "a\n".data = ["a\n".data] := by decide
example : pyReplaceAll "aaa".data "aa".data "X".data = "Xa".data := by decide
example : pyReplaceOnce "abab".data "ab".data "z".data = "zab".data := by decide
example : pyReplace "ab".data [] "-".data none = "-a-b-".data := by decide
example : pyContains "hello".data "ell".data = true := by decide
example : pyContains "hello".data [] = true := by decide
example : pyStrip "  a b ".data = "a b".data := by decide

/-!
### Model of `difflib.SequenceMatcher` (as used via `.ratio()`)

The source constructs `SequenceMatcher(None, a, b)` on strings and calls
`.ratio()`, which is `2*M/T` where `T = len(a) + len(b)` and `M` is the
total size of the matching blocks found by `get_matching_blocks` (a greedy
longest-match recursion).  With junk predicate `None`, `bjunk` is empty, so
the two junk-extension loops of `find_longest_match` never fire; the
autojunk heuristic (only active when `len(b) >= 200`) removes "popular"
elements from `b2j` and is modelled by `djbPopular`.
-/

/-- difflib's autojunk "popular" test for elements of `b`: active only when
`len(b) >= 200`, an element is popular when it occurs more than
`len(b) // 100 + 1` times. -/
def djbPopular (b : Str) (c : Char) : Bool :=
  b.length ≥ 200 && b.count c > b.length / 100 + 1

/-- The `b2j` position list of `c` in `b` (ascending), with popular
elements removed. -/
def djbPositions (b : Str) (c : Char) : List Nat :=
  if djbPopular b c then []
  else (List.range b.length).filter (fun j => b.getD j ' ' == c)

/-- One step of the `find_longest_match` main loop: processing element
`a[i] = ai` updates the `j2len` table and the current best `(i', j', size)`
triple (only strictly longer matches replace the best, so the first maximal
match in scan order is kept). -/
def djbStep (b : Str) (st : (Nat → Nat) × (Nat × Nat × Nat)) (i : Nat) (ai : Char) :
    (Nat → Nat) × (Nat × Nat × Nat) :=
  let j2len := st.1
  let newj2len : Nat → Nat := fun j =>
    if j < b.length && (b.getD j ' ' == ai) && !djbPopular b ai then
      (if j = 0 then 0 else j2len (j - 1)) + 1
    else 0
  let best := (djbPositions b ai).foldl
    (fun bst j =>
      let k := (if j = 0 then 0 else j2len (j - 1)) + 1
      if k > bst.2.2 then (i + 1 - k, j + 1 - k, k) else bst)
    st.2
  (newj2len, best)

/-- The main loop of `find_longest_match(0, len(a), 0, len(b))`. -/
def djbMainLoop (a b : Str) : Nat × Nat × Nat :=
  (List.foldl (fun st p => djbStep b st p.1 p.2) (fun _ => 0, (0, 0, 0)) a.enum).2

/-- The first extension loop: grow the best match leftwards over equal
elements (the junk guard is vacuous with an empty junk set). -/
def djbExtendLeft (a b : Str) : Nat → Nat × Nat × Nat → Nat × Nat × Nat
  | 0, st => st
  | fuel + 1, (i, j, k) =>
    if 0 < i && 0 < j && (a.getD (i - 1) ' ' == b.getD (j - 1) ' ') then
      djbExtendLeft a b fuel (i - 1, j - 1, k + 1)
    else (i, j, k)

/-- The second extension loop: grow the best match rightwards over equal
elements. -/
def djbExtendRight (a b : Str) : Nat → Nat × Nat × Nat → Nat × Nat × Nat
  | 0, st => st
  | fuel + 1, (i, j, k) =>
    if i + k < a.length && j + k < b.length && (a.getD (i + k) ' ' == b.getD (j + k) ' ') then
      djbExtendRight a b fuel (i, j, k + 1)
    else (i, j, k)

/-- `find_longest_match` over the whole of `a` and `b` (junk set empty). -/
def djbFindLongest (a b : Str) : Nat × Nat × Nat :=
  djbExtendRight a b a.length (djbExtendLeft a b a.length (djbMainLoop a b))

/-- Total size of the matching blocks of `get_matching_blocks` (the sum of
block sizes; the queue order and the final merge of adjacent blocks do not
affect the sum). -/
def djbMatchSum (fuel : Nat) (a b : Str) : Nat :=
  match fuel with
  | 0 => 0
  | fuel + 1 =>
    let (i, j, k) := djbFindLongest a b
    if k = 0 then 0
    else
      k + djbMatchSum fuel (a.take i) (b.take j) +
        djbMatchSum fuel (a.drop (i + k)) (b.drop (j + k))

/-- `SequenceMatcher(None, a, b).ratio()` as an exact fraction
`(numerator, denominator)`: `(2*M, len(a)+len(b))`, or `(1, 1)` when both
strings are empty (difflib returns `1.0` then).  Fractions are kept
unreduced and compared by cross-multiplication, which is exact rational
comparison. -/
def seqRatio (a b : Str) : Nat × Nat :=
  let total := a.length + b.length
  if total = 0 then (1, 1)
  else (2 * djbMatchSum (total + 1) a b, total)

/-- Exact comparison `p < q` of two fractions with positive denominators. -/
def ratioLt (p q : Nat × Nat) : Bool := p.1 * q.2 < q.1 * p.2

/-- Exact comparison `p ≤ q` of two fractions with positive denominators. -/
def ratioLe (p q : Nat × Nat) : Bool := p.1 * q.2 ≤ q.1 * p.2

example : seqRatio "abcd".data "abcd".data = (8, 8) := by decide
example : seqRatio "abcd".data "wxyz".data = (0, 8) := by decide
example : seqRatio "abcde".data "ab\ncd".data = (8, 10) := by decide
example : seqRatio "ab\ncx".data "ab\ncd".data = (8, 10) := by decide
example : seqRatio "cx\nabcde".data "ab\ncd".data = (8, 13) := by decide
example : seqRatio "ab".data "ab\ncd".data = (4, 7) := by decide
example : seqRatio "a\nb".data "  a\n  b".data = (6, 10) := by decide

/-!
### `fuzzy_search_and_replace`

The source computes
`min_len = max(1, int(len(search_lines) * (1 - scale)))` and
`max_len = min(len(original_lines), int(len(search_lines) * (1 + scale)))`
with `scale = 0.1`.  In IEEE doubles `1 - 0.1` rounds to the double nearest
`0.9` and `1 + 0.1` to the double nearest `1.1`; truncating `n * 0.9` and
`n * 1.1` to an int yields `9*n/10` and `11*n/10` (Nat floor division) for
every list length `n` representable in practice (the float product stays on
the correct side of every integer for all `n` below `2^45`, far beyond any
line count), which is how the bounds are modelled here.
-/

/-- `max(1, int(len(search_lines) * (1 - scale)))`. -/
def fuzzyMinLen (n : Nat) : Nat := max 1 (9 * n / 10)

/-- `min(len(original_lines), int(len(search_lines) * (1 + scale)))`. -/
def fuzzyMaxLen (n m : Nat) : Nat := min m (11 * n / 10)

/-- The candidate window lengths scanned by `fuzzy_search_and_replace`:
`range(min_len, max_len + 1)`. -/
def fuzzyCandidateLengths (n m : Nat) : List Nat :=
  List.range' (fuzzyMinLen n) (fuzzyMaxLen n m + 1 - fuzzyMinLen n)

/-- All `(length, start)` windows in the scan order of the source's nested
loops: window length ascending (outer loop), start ascending (inner loop). -/
def fuzzyWindows (n m : Nat) : List (Nat × Nat) :=
  (fuzzyCandidateLengths n m).flatMap fun L =>
    (if L ≤ m then List.range (m - L + 1) else []).map fun i => (L, i)

/-- Similarity of the window `(L, i)` of `origLines` against `search`:
`SequenceMatcher(None, "\n".join(original_lines[i:i+L]), search_text).ratio()`. -/
def windowSim (search : Str) (origLines : List Str) (w : Nat × Nat) : Nat × Nat :=
  seqRatio (pyJoinNl ((origLines.drop w.2).take w.1)) search

/-- The best-window fold: strictly larger similarity replaces the best, so
the first window attaining the maximum (in the traversal order of `l`) is
kept.  `none` models the initial `best_match_start = -1` state (never
updated when every window's similarity numerator is 0, since the initial
`max_similarity` is the integer 0). -/
def bestFold (sim : α → Nat × Nat) (l : List α) : (Nat × Nat) × Option α :=
  l.foldl (fun st w => if ratioLt st.1 (sim w) then (sim w, some w) else st) ((0, 1), none)

/-- Python slice index resolution for a list of length `len` (negative
indices count from the end, everything clamped into `[0, len]`). -/
def pySliceIdx (len : Nat) (i : Int) : Nat :=
  if i < 0 then len - (-i).toNat else min len i.toNat

/-- `fuzzy_search_and_replace(texts, threshold)`.  The float threshold is
modelled as the exact fraction `tn / td`. -/
def fuzzy_search_and_replace (s r o : Str) (tn td : Nat) : Option Str :=
  let searchLines := pySplitlines s
  let origLines := pySplitlines o
  let (best, bestW) := bestFold (windowSim s origLines) (fuzzyWindows searchLines.length origLines.length)
  let bestStart : Int := match bestW with | none => -1 | some w => w.2
  let bestEnd : Int := match bestW with | none => -1 | some w => w.2 + w.1
  if ratioLt best (tn, td) then none
  else some (pyJoinNl
    ((origLines.take (pySliceIdx origLines.length bestStart)) ++
      pySplitlines r ++
      (origLines.drop (pySliceIdx origLines.length bestEnd))))

example : fuzzyCandidateLengths 1 2 = [1] := by decide
example : fuzzyCandidateLengths 2 3 = [1, 2] := by decide
example : fuzzyWindows 2 3 = [(1, 0), (1, 1), (1, 2), (2, 0), (2, 1)] := by decide
example :
    fuzzy_search_and_replace "ab\ncd".data "R".data "ab\ncx\nabcde".data 8 10 =
      some "ab\ncx\nR".data := by decide
example :
    fuzzy_search_and_replace "ab\ncd".data "R".data "ab\ncx\nabcde".data 9 10 = none := by decide

/-- The candidate-length range asserted by the specification sentence (C5):
from `max(1, floor(0.9 × n))` to `min(m, ceil(1.1 × n))` inclusive
(`ceil(11n/10) = (11n + 9) / 10` in integer arithmetic). -/
def specFuzzyLengths (n m : Nat) : List Nat :=
  List.range' (max 1 (9 * n / 10)) (min m ((11 * n + 9) / 10) + 1 - max 1 (9 * n / 10))

/-- C5, counterexample: for a one-line search over a two-line original the
scanned window lengths are `{1}` (the source truncates `1 * 1.1` to `1`),
while the claimed range `max(1, floor(0.9)) .. min(2, ceil(1.1)) = 1 .. 2`
also contains `2`.  So the claimed set is not the scanned set. -/
theorem C5_counterexample :
    fuzzyCandidateLengths 1 2 = [1] ∧ specFuzzyLengths 1 2 = [1, 2] ∧
      fuzzyCandidateLengths 1 2 ≠ specFuzzyLengths 1 2 := by decide

/-- C5, amended: the candidate window lengths of `fuzzy_search_and_replace`
are exactly the integers from `max(1, floor(0.9 × |search_lines|))` to
`min(|original_lines|, floor(1.1 × |search_lines|))` inclusive — both bounds
are floors (Python `int()` truncation), not a floor and a ceiling. -/
theorem C5_window_lengths (n m L : Nat) :
    L ∈ fuzzyCandidateLengths n m ↔
      max 1 (9 * n / 10) ≤ L ∧ L ≤ min m (11 * n / 10) := by
  unfold fuzzyCandidateLengths fuzzyMinLen fuzzyMaxLen
  rw [List.mem_range'_1]
  omega

/-!
### `search_and_replace` and `strip_blank_lines`
-/

/-- `search_and_replace((search, replace, original))`: `None` when `search`
does not occur in `original`, otherwise `original.replace(search, replace)`
(every occurrence replaced). -/
def search_and_replace (s r o : Str) : Option Str :=
  if pyContains o s then some (pyReplaceAll o s r) else none

/-- `strip_blank_lines`, applied to one text: `text.strip("\n") + "\n"`. -/
def strip_blank_lines1 (t : Str) : Str := pyStripSet ['\n'] t ++ ['\n']

/-!
### `RelativeIndenter`

The constructor chooses a marker character absent from the supplied texts:
`"←"` unless it already occurs, in which case a descending scan over
`range(0x10FFFF, 0x10000, -1)` finds an unused code point (raising
`ValueError` — modelled as `none` — in the practically unreachable case
where all collide).  `make_relative` rewrites each line as a prefix line
(the added indent, or `marker * d` for an outdent of `d`) followed by the
line without its indent; `make_absolute` reverses this, never re-indenting
blank content lines, and raises `ValueError` (modelled as `none`) if the
marker survives in the reconstruction.  Lines are modelled for `\n`-ended
text (`splitlines(keepends=True)` with only `\n` breaks).
-/

/-- Marker selection of `RelativeIndenter.__init__` (plus
`select_unique_marker`). -/
def riMarker (texts : List Str) : Option Char :=
  let chars := texts.flatten
  if chars.contains '←' then
    match ((List.range' 0x10001 0xFFFFF).reverse.find? fun cp =>
        !chars.contains (Char.ofNat cp)) with
    | some cp => some (Char.ofNat cp)
    | none => none
  else some '←'

/-- The per-line worker of `make_relative`: state is the previous line's
indent string. -/
def riRelLines (marker : Char) (prev : Str) : List Str → List Str
  | [] => []
  | line :: rest =>
    let lwe := pyRstripSet ['\n', '\r'] line
    let lenIndent := lwe.length - (pyLstrip lwe).length
    let indent := line.take lenIndent
    let cur :=
      if prev.length < lenIndent then indent.drop (prev.length)
      else if lenIndent < prev.length then List.replicate (prev.length - lenIndent) marker
      else []
    (cur ++ '\n' :: line.drop lenIndent) :: riRelLines marker indent rest

/-- `RelativeIndenter.make_relative` (raising — `none` — when the text
already contains the marker). -/
def make_relative (marker : Char) (t : Str) : Option Str :=
  if t.contains marker then none
  else some (riRelLines marker [] (pySplitKeepNl t)).flatten

/-- The pair-consuming worker of `make_absolute`: walks (prefix, content)
line pairs, maintaining the previous absolute indent; a trailing unpaired
prefix line is dropped (the source's `break`). -/
def riAbsLines (marker : Char) (prev : Str) : List Str → List Str
  | [] => []
  | [_] => []
  | dent :: content :: rest =>
    let d := pyRstripSet ['\r', '\n'] dent
    let isOutdent := match d with | c :: _ => c == marker | [] => false
    let cur := if isOutdent then prev.take (prev.length - d.length) else prev ++ d
    let out := if (pyRstripSet ['\r', '\n'] content).isEmpty then content else cur ++ content
    out :: riAbsLines marker cur rest

/-- `RelativeIndenter.make_absolute` (raising — `none` — when the marker
survives in the reconstructed text). -/
def make_absolute (marker : Char) (t : Str) : Option Str :=
  let res := (riAbsLines marker [] (pySplitKeepNl t)).flatten
  if res.contains marker then none else some res

example : make_relative '←' "    line1\n        line2\n        line3\n    line4".data =
    some "    \nline1\n    \nline2\n\nline3\n←←←←\nline4".data := by decide
example : (make_relative '←' "    a\n\n    b\n".data).bind (make_absolute '←') =
    some "    a\n\n    b\n".data := by decide
example : (make_relative '←' " \n".data).bind (make_absolute '←') = some "\n".data := by decide

/-!
### `try_dotdotdots`

`re.split` with the capturing pattern `(\.{3}|…)` produces an alternating
list `[text, sep, text, sep, ..., text]`; the strategy walks the literal
pieces (even indices), replacing the first occurrence of each non-blank
piece, with a character-window fuzzy fallback at threshold 0.7.
-/

/-- `re.split(r'(\.{3}|…)', t)` — the alternation tries three dots first,
scanning left to right. -/
def dotsSplit (t : Str) : List Str :=
  go [] t
where
  go (cur : Str) : Str → List Str
    | [] => [cur.reverse]
    | '.' :: '.' :: '.' :: rest => cur.reverse :: "...".data :: go [] rest
    | '…' :: rest => cur.reverse :: "…".data :: go [] rest
    | c :: rest => go (c :: cur) rest

/-- The even-index elements of a list (the literal, non-separator pieces of
a `re.split` with a capturing group). -/
def evenIdx : List α → List α
  | [] => []
  | [x] => [x]
  | x :: _ :: rest => x :: evenIdx rest

/-- The fuzzy fallback for one ellipsis piece: slide a window of exactly
`len(search_piece)` characters over the current text, keep the first window
of strictly maximal `SequenceMatcher(None, search_piece, chunk).ratio()`,
and accept it only at ratio ≥ 0.7 (then the first occurrence of the winning
chunk is replaced). -/
def dotsFallback (spc rpc acc : Str) : Option Str :=
  let plen := spc.length
  let js := if plen ≤ acc.length then List.range (acc.length - plen + 1) else []
  let (best, bestJ) := bestFold (fun j => seqRatio spc ((acc.drop j).take plen)) js
  match bestJ with
  | none => none
  | some j =>
    if ratioLe (7, 10) best then some (pyReplaceOnce acc ((acc.drop j).take plen) rpc)
    else none

/-- The piece loop of `try_dotdotdots`: each non-blank literal search piece
is replaced (first occurrence) in the running text; a piece with no exact
occurrence falls back to `dotsFallback`, and its failure aborts the whole
strategy. -/
def dotsLoop : List (Str × Str) → Str → Option Str
  | [], acc => some acc
  | (spc, rpc) :: rest, acc =>
    if (pyStrip spc).isEmpty then dotsLoop rest acc
    else if pyContains acc spc then dotsLoop rest (pyReplaceOnce acc spc rpc)
    else
      match dotsFallback spc rpc acc with
      | some acc' => dotsLoop rest acc'
      | none => none

/-- `try_dotdotdots((search, replace, original))`. -/
def try_dotdotdots (s r o : Str) : Option Str :=
  if !(pyContains s "...".data) && !(pyContains s "…".data) then none
  else
    let sp := dotsSplit s
    let rp := dotsSplit r
    if sp.length ≠ rp.length then none
    else if sp.length = 1 then none
    else dotsLoop ((evenIdx sp).zip (evenIdx rp)) o

example : dotsSplit "a...b…c".data =
    ["a".data, "...".data, "b".data, "…".data, "c".data] := by decide
example : dotsSplit "....".data = ["".data, "...".data, ".".data] := by decide
example : try_dotdotdots "a\n...\nb".data "A\n...\nB".data "a\nxx\nb\n".data =
    some "A\nxx\nB\n".data := by decide
example : try_dotdotdots "a\nb".data "A\nB".data "a\nxx\nb\n".data = none := by decide
example : try_dotdotdots "a...b".data "A...B...C".data "ab".data = none := by decide

/-!
### `replace_with_whitespace_flexibility`

The source builds `re.sub(r'\s+', r'\\s+', re.escape(search_text))` and
replaces the first regex match in the original.  `re.escape` (Python ≥ 3.7)
backslash-escapes exactly the special characters below — including every
ASCII whitespace character — so the pattern obtained after the whitespace
substitution is a sequence of escaped literals and `\s+` wildcards (the
substitution runs over the *escaped* text, where each whitespace character
sits alone between backslashes; this makes the constructed pattern contain
literal backslashes whenever the search text contains whitespace, exactly
as the source does).  The pattern language actually reachable is: literal
characters and the classes `\s`, each optionally followed by `+`; matching
is Python's leftmost search with greedy backtracking quantifiers.
-/

/-- The characters escaped by `re.escape` (CPython's `_special_chars_map`). -/
def reSpecialChars : List Char :=
  "()[]{}?*+-|^$\\.&~# \t\n\r".data ++ [Char.ofNat 11, Char.ofNat 12]

/-- `re.escape(t)`. -/
def reEscape (t : Str) : Str :=
  t.flatMap fun c => if reSpecialChars.contains c then ['\\', c] else [c]

/-- `re.sub(r'\s+', r'\\s+', t)`: replace each maximal whitespace run with
the three characters `\s+`. -/
def subWsPlus : Str → Str
  | [] => []
  | [c] => if isPyWs c then ['\\', 's', '+'] else [c]
  | c :: d :: rest =>
    if isPyWs c then
      if isPyWs d then subWsPlus (d :: rest)
      else '\\' :: 's' :: '+' :: subWsPlus (d :: rest)
    else c :: subWsPlus (d :: rest)

/-- A token of the constructed pattern: a literal or the class `\s`, with
an optional `+` quantifier. -/
inductive ReTok
  | lit (c : Char) (plus : Bool)
  | ws (plus : Bool)
deriving DecidableEq, Repr

/-- Parse the constructed pattern string into tokens (`\c` is an escaped
literal except `\s`, a bare `+` quantifies the preceding atom). -/
def parsePat : Str → List ReTok
  | [] => []
  | '\\' :: 's' :: '+' :: rest => .ws true :: parsePat rest
  | '\\' :: 's' :: rest => .ws false :: parsePat rest
  | '\\' :: c :: '+' :: rest => .lit c true :: parsePat rest
  | '\\' :: c :: rest => .lit c false :: parsePat rest
  | c :: '+' :: rest => .lit c true :: parsePat rest
  | c :: rest => .lit c false :: parsePat rest

/-- Does a token match one character? -/
def tokMatches : ReTok → Char → Bool
  | .lit c _, d => c == d
  | .ws _, d => isPyWs d

/-- Backtracking matcher: `reM fuel toks u` returns the number of
characters of `u` consumed by a match of `toks` anchored at the start of
`u`, with Python's greedy `+` (longest repetition whose continuation
matches).  Fuel `|toks| + |u| + 1` always suffices. -/
def reM (fuel : Nat) (toks : List ReTok) (u : Str) : Option Nat :=
  match fuel with
  | 0 => none
  | fuel + 1 =>
    match toks, u with
    | [], _ => some 0
    | .lit c false :: rest, d :: u' =>
      if c == d then (reM fuel rest u').map (· + 1) else none
    | .ws false :: rest, d :: u' =>
      if isPyWs d then (reM fuel rest u').map (· + 1) else none
    | .lit c true :: rest, d :: u' =>
      if c == d then
        match reM fuel (.lit c true :: rest) u' with
        | some n => some (n + 1)
        | none => (reM fuel rest u').map (· + 1)
      else none
    | .ws true :: rest, d :: u' =>
      if isPyWs d then
        match reM fuel (.ws true :: rest) u' with
        | some n => some (n + 1)
        | none => (reM fuel rest u').map (· + 1)
      else none
    | _ :: _, [] => none

/-- Leftmost regex search: the first start position (scanning left to
right) where the token list matches, with the greedy match length. -/
def reSearch (toks : List ReTok) (pos : Nat) (u : Str) : Option (Nat × Nat) :=
  match reM (toks.length + u.length + 1) toks u with
  | some n => some (pos, pos + n)
  | none =>
    match u with
    | [] => none
    | _ :: rest => reSearch toks (pos + 1) rest

/-- `replace_with_whitespace_flexibility((search, replace, original))`:
replace the span of the first match of the constructed pattern. -/
def replace_with_whitespace_flexibility (s r o : Str) : Option Str :=
  let pat := parsePat (subWsPlus (reEscape s))
  match reSearch pat 0 o with
  | none => none
  | some (st, en) => some (o.take st ++ r ++ o.drop en)

-- Whitespace in the search text is itself escaped, so after the `\s+`
-- substitution the pattern reads `a` `\\` `s+` `b`: a literal backslash and
-- one-or-more literal `s`, not a whitespace class — reproducing the source's
-- actual (surprising) behaviour for whitespace-containing search texts.
example : parsePat (subWsPlus (reEscape "a b".data)) =
    [.lit 'a' false, .lit '\\' false, .lit 's' true, .lit 'b' false] := by decide
example : replace_with_whitespace_flexibility "ab".data "Z".data "xaby".data =
    some "xZy".data := by decide
example : replace_with_whitespace_flexibility "a b".data "Z".data "a  b".data = none := by decide
example : replace_with_whitespace_flexibility "a b".data "Z".data "xa\\sssby".data =
    some "xZy".data := by decide

/-!
### The comprehensive-preprocessing sub-strategies and the cascade

Python exceptions that can escape a function are modelled with
`Except PyErr`; the only reachable raise site in this group is the
out-of-range list access `aligned_replace_lines[j]` in
`try_indent_alignment` (reached when the replacement has fewer lines than
the search and an aligned window matches).  The `ValueError`s of
`RelativeIndenter` are caught inside their callers (`except ValueError:
pass`) and therefore surface as `none` directly.
-/

inductive PyErr
  | indexError
deriving DecidableEq, Repr

deriving instance DecidableEq for Except

/-- `re.sub(r'\s+', ' ', t)`: collapse each maximal whitespace run to a
single space. -/
def collapseWs : Str → Str
  | [] => []
  | [c] => if isPyWs c then [' '] else [c]
  | c :: d :: rest =>
    if isPyWs c then
      if isPyWs d then collapseWs (d :: rest)
      else ' ' :: collapseWs (d :: rest)
    else c :: collapseWs (d :: rest)

/-- Per-line whitespace normalisation:
`"\n".join(re.sub(r'\s+', ' ', line.strip()) for line in t.splitlines())`. -/
def wsNormLines (t : Str) : Str :=
  pyJoinNl ((pySplitlines t).map fun l => collapseWs (pyStrip l))

/-- `try_blank_line_stripping_only`. -/
def try_blank_line_stripping_only (s r o : Str) : Option Str :=
  let ss := strip_blank_lines1 s
  let rr := strip_blank_lines1 r
  let oo := strip_blank_lines1 o
  if pyContains oo ss then some (pyReplaceAll oo ss rr) else none

/-- `try_whitespace_normalization`. -/
def try_whitespace_normalization (s r o : Str) : Option Str :=
  let ns := wsNormLines s
  let nr := wsNormLines r
  let nOrig := wsNormLines o
  if pyContains nOrig ns then some (pyReplaceAll nOrig ns nr) else none

/-- Length of a line's leading-whitespace indent. -/
def lineIndentLen (l : Str) : Nat := l.length - (pyLstrip l).length

/-- Remove the common indent `minI` from every non-blank line that is at
least that deeply indented (blank and shallower lines are kept as-is). -/
def alignToMin (minI : Nat) (lines : List Str) : List Str :=
  lines.map fun l =>
    if (pyStrip l).isEmpty then l
    else if minI ≤ lineIndentLen l then l.drop minI else l

/-- The write-back loop of `try_indent_alignment`: for each `j` below the
search line count, `aligned_replace_lines[j]` is read — an `IndexError`
when the replacement has fewer lines — and written at `i + j` with the
original line's indentation re-applied to non-blank lines. -/
def iwbGo (alignedReplace : List Str) (i : Nat) : List Nat → List Str → Except PyErr (List Str)
  | [], res => .ok res
  | j :: js, res =>
    if i + j < res.length then
      match alignedReplace.get? j with
      | none => .error .indexError
      | some nl0 =>
        let cur := res.getD (i + j) []
        let nl :=
          if !(pyStrip cur).isEmpty then List.replicate (lineIndentLen cur) ' ' ++ pyLstrip nl0
          else nl0
        iwbGo alignedReplace i js (res.set (i + j) nl)
    else iwbGo alignedReplace i js res

/-- The window scan of `try_indent_alignment`: the first window whose
dedented text equals the dedented search is rewritten (first match wins);
windows with no non-blank line are skipped. -/
def iaScan (origLines : List Str) (slen : Nat) (alignedSearch : Str)
    (alignedReplace : List Str) : List Nat → Except PyErr (Option Str)
  | [] => .ok none
  | i :: is =>
    let window := (origLines.drop i).take slen
    match (window.filter fun l => !(pyStrip l).isEmpty).map lineIndentLen with
    | [] => iaScan origLines slen alignedSearch alignedReplace is
    | x :: xs =>
      let minP := xs.foldl min x
      if pyJoinNl (alignToMin minP window) = alignedSearch then
        match iwbGo alignedReplace i (List.range slen) origLines with
        | .error e => .error e
        | .ok res => .ok (some (pyJoinNl res))
      else iaScan origLines slen alignedSearch alignedReplace is

/-- `try_indent_alignment`. -/
def try_indent_alignment (s r o : Str) : Except PyErr (Option Str) :=
  let searchLines := pySplitlines s
  let replaceLines := pySplitlines r
  let origLines := pySplitlines o
  if searchLines.isEmpty || replaceLines.isEmpty || origLines.isEmpty then .ok none
  else
    match (searchLines.filter fun l => !(pyStrip l).isEmpty).map lineIndentLen with
    | [] => .ok none
    | x :: xs =>
      let minS := xs.foldl min x
      let alignedSearch := pyJoinNl (alignToMin minS searchLines)
      let alignedReplaceLines := alignToMin minS replaceLines
      let starts :=
        if searchLines.length ≤ origLines.length then
          List.range (origLines.length - searchLines.length + 1)
        else []
      iaScan origLines searchLines.length alignedSearch alignedReplaceLines starts

/-- `try_relative_indentation` (its `except ValueError: pass` shows up as
the `none` fallthroughs). -/
def try_relative_indentation (s r o : Str) : Option Str :=
  match riMarker [s, r, o] with
  | none => none
  | some m =>
    match make_relative m s, make_relative m r, make_relative m o with
    | some rs, some rr, some ro =>
      if pyContains ro rs then make_absolute m (pyReplaceAll ro rs rr) else none
    | _, _, _ => none

/-- `try_relative_with_blank_stripping`, including the restoration of the
original's leading/trailing blank lines on success. -/
def try_relative_with_blank_stripping (s r o : Str) : Option Str :=
  let ss := strip_blank_lines1 s
  let rr0 := strip_blank_lines1 r
  let oo := strip_blank_lines1 o
  match riMarker [ss, rr0, oo] with
  | none => none
  | some m =>
    match make_relative m ss, make_relative m rr0, make_relative m oo with
    | some rs, some rrel, some ro =>
      if pyContains ro rs then
        match make_absolute m (pyReplaceAll ro rs rrel) with
        | none => none
        | some res =>
          let leading := o.length - (o.dropWhile (· == '\n')).length
          let trailing := o.length - (pyRstripSet ['\n'] o).length
          let res1 := if 0 < leading then List.replicate leading '\n' ++ res else res
          let res2 :=
            if 0 < trailing then pyRstripSet ['\n'] res1 ++ List.replicate trailing '\n'
            else res1
          some res2
      else none
    | _, _, _ => none

/-- `try_relative_with_whitespace_norm` (whole-text whitespace collapse,
then relative indentation). -/
def try_relative_with_whitespace_norm (s r o : Str) : Option Str :=
  let ns := collapseWs s
  let nr := collapseWs r
  let nOrig := collapseWs o
  match riMarker [ns, nr, nOrig] with
  | none => none
  | some m =>
    match make_relative m ns, make_relative m nr, make_relative m nOrig with
    | some rs, some rr, some ro =>
      if pyContains ro rs then make_absolute m (pyReplaceAll ro rs rr) else none
    | _, _, _ => none

/-- `try_all_preprocessing`: blank-line stripping, then per-line
whitespace normalisation, then relative indentation. -/
def try_all_preprocessing (s r o : Str) : Option Str :=
  let ns := wsNormLines (strip_blank_lines1 s)
  let nr := wsNormLines (strip_blank_lines1 r)
  let nOrig := wsNormLines (strip_blank_lines1 o)
  match riMarker [ns, nr, nOrig] with
  | none => none
  | some m =>
    match make_relative m ns, make_relative m nr, make_relative m nOrig with
    | some rs, some rr, some ro =>
      if pyContains ro rs then make_absolute m (pyReplaceAll ro rs rr) else none
    | _, _, _ => none

/-- Python truthiness of an optional string (`if result:`): `None` and the
empty string are both falsy. -/
def optTruthy : Option Str → Bool
  | some l => !l.isEmpty
  | none => false

/-- `apply_comprehensive_preprocessing`: the seven sub-strategies in source
order, each gated by `if result:` (so an *empty-string* success is
discarded like a failure), with **no** try/except inside — an exception in
a sub-strategy propagates out of the whole sub-cascade. -/
def apply_comprehensive_preprocessing (s r o : Str) : Except PyErr (Option Str) :=
  let r1 := try_blank_line_stripping_only s r o
  if optTruthy r1 then .ok r1 else
  let r2 := try_whitespace_normalization s r o
  if optTruthy r2 then .ok r2 else
  match try_indent_alignment s r o with
  | .error e => .error e
  | .ok r3 =>
    if optTruthy r3 then .ok r3 else
    let r4 := try_relative_indentation s r o
    if optTruthy r4 then .ok r4 else
    let r5 := try_relative_with_blank_stripping s r o
    if optTruthy r5 then .ok r5 else
    let r6 := try_relative_with_whitespace_norm s r o
    if optTruthy r6 then .ok r6 else
    let r7 := try_all_preprocessing s r o
    if optTruthy r7 then .ok r7 else .ok none

/-- `git_cherry_pick_strategy`.  The strategy shells out to an optional
version-control tool in a scratch repository (I/O outside the pure model);
per its own blanket `except: return None` handlers — and the specification's
"any conflict or tool absence is a clean failure" — the absence of the tool
(and any error on the way) yields `None`, which is how the strategy is
modelled here.  No theorem in this file depends on its success path. -/
def git_cherry_pick_strategy (_s _r _o : Str) : Option Str := none

/-- `flexible_search_and_replace(search, replace, original)`: the ordered
strategy cascade.  Each strategy runs inside `try/except Exception`, so a
raising strategy is absorbed as a no-match and the cascade continues; in
the model only `apply_comprehensive_preprocessing` can carry an error, and
its `Except` is collapsed to `none` exactly where the source's handler
sits.  The cascade tests `result is not None` (not truthiness), so an
empty-string success is returned as-is. -/
def flexible_search_and_replace (s r o : Str) : Option Str :=
  match search_and_replace s r o with
  | some v => some v
  | none =>
  match try_dotdotdots s r o with
  | some v => some v
  | none =>
  match search_and_replace (strip_blank_lines1 s) (strip_blank_lines1 r) (strip_blank_lines1 o) with
  | some v => some v
  | none =>
  match replace_with_whitespace_flexibility s r o with
  | some v => some v
  | none =>
  match (match apply_comprehensive_preprocessing s r o with
         | .ok v => v
         | .error _ => none) with
  | some v => some v
  | none =>
  match git_cherry_pick_strategy s r o with
  | some v => some v
  | none => fuzzy_search_and_replace s r o 7 10

/-- The same cascade with the comprehensive-preprocessing step removed
(used to state what absorbing that step's exception leaves behind). -/
def flexible_without_preprocessing (s r o : Str) : Option Str :=
  match search_and_replace s r o with
  | some v => some v
  | none =>
  match try_dotdotdots s r o with
  | some v => some v
  | none =>
  match search_and_replace (strip_blank_lines1 s) (strip_blank_lines1 r) (strip_blank_lines1 o) with
  | some v => some v
  | none =>
  match replace_with_whitespace_flexibility s r o with
  | some v => some v
  | none =>
  match git_cherry_pick_strategy s r o with
  | some v => some v
  | none => fuzzy_search_and_replace s r o 7 10

example : flexible_search_and_replace "x = 1".data "x = 2".data
    "def f():\n    x = 1\n    return x\n".data =
    some "def f():\n    x = 2\n    return x\n".data := by decide
example : apply_comprehensive_preprocessing "  a\n  b".data " ".data "a\nb".data =
    .error .indexError := by decide
example : flexible_search_and_replace "  a\n  b".data " ".data "a\nb".data = none := by decide

/-!
### `apply_unified_diff`

Python list semantics matter here: `original_lines[current_orig_line]`
accepts negative indices down to `-len` and raises `IndexError` below that
(including any negative index into an empty list); `list.pop(i)` has the
same index rule; `list.insert(i, x)` never raises (negative indices count
from the end and everything is clamped into `[0, len]`).  A context or
removal line that fails its comparison makes the function `return None`
(modelled `Except.ok none`).
-/

/-- Python `l[i]` for an `int` index (negative indices count from the end;
out-of-range raises `IndexError`). -/
def pyGetInt (l : List α) (i : Int) : Except PyErr α :=
  let idx := if i < 0 then i + l.length else i
  if h : 0 ≤ idx ∧ idx < (l.length : Int) then .ok (l.get ⟨idx.toNat, by omega⟩)
  else .error .indexError

/-- Python `l.pop(i)` (the popped value is unused by the source, so only
the shortened list is returned; the index rule is the same as `l[i]`). -/
def pyPopAt (l : List α) (i : Int) : Except PyErr (List α) :=
  let idx := if i < 0 then i + l.length else i
  if 0 ≤ idx ∧ idx < (l.length : Int) then .ok (l.take idx.toNat ++ l.drop (idx.toNat + 1))
  else .error .indexError

/-- Python `l.insert(i, x)` (never raises: negative indices count from the
end and the position is clamped into `[0, len]`). -/
def pyInsert (l : List α) (i : Int) (x : α) : List α :=
  let idx := if i < 0 then (l.length - (-i).toNat : Nat) else min l.length i.toNat
  l.take idx ++ x :: l.drop idx

example : pyGetInt ["a".data, "b".data] (-1) = .ok "b".data := by decide
example : pyGetInt ([] : List Str) (-1) = .error .indexError := by decide
example : pyInsert ["a", "b", "c"] (-1) "x" = ["a", "b", "x", "c"] := by decide
example : pyInsert ([] : List String) (-1) "x" = ["x"] := by decide
example : pyPopAt ["a", "b", "c"] 1 = .ok ["a", "c"] := by decide

/-- Parse a hunk header with `re.match(r'^@@ -(\d+)(?:,\d+)? \+(\d+)(?:,\d+)? @@', line)`
and return the first captured number (the 1-based original start).  `None`
models a failed match (the source then skips the line). -/
def parseHunkHeader (l : Str) : Option Nat :=
  match l with
  | '@' :: '@' :: ' ' :: '-' :: rest =>
    let d1 := rest.takeWhile Char.isDigit
    let r1 := rest.dropWhile Char.isDigit
    if d1.isEmpty then none
    else
      let r2 := match r1 with
        | ',' :: t => if (t.takeWhile Char.isDigit).isEmpty then none
                      else some (t.dropWhile Char.isDigit)
        | t => some t
      match r2 with
      | none => none
      | some r2 =>
        match r2 with
        | ' ' :: '+' :: rest2 =>
          let d2 := rest2.takeWhile Char.isDigit
          let r3 := rest2.dropWhile Char.isDigit
          if d2.isEmpty then none
          else
            let r4 := match r3 with
              | ',' :: t => if (t.takeWhile Char.isDigit).isEmpty then none
                            else some (t.dropWhile Char.isDigit)
              | t => some t
            match r4 with
            | none => none
            | some (' ' :: '@' :: '@' :: _) =>
              some (d1.foldl (fun acc c => 10 * acc + (c.toNat - '0'.toNat)) 0)
            | some _ => none
        | _ => none
  | _ => none

example : parseHunkHeader "@@ -3,2 +3,3 @@ extra".data = some 3 := by decide
example : parseHunkHeader "@@ -0 +1 @@".data = some 0 := by decide
example : parseHunkHeader "@@ -a +1 @@".data = none := by decide
example : parseHunkHeader "@@ -3, +1 @@".data = none := by decide

/-- The hunk-body loop of `apply_unified_diff`: walk the hunk lines with
the original-line cursor `cur` and the insert/delete offset `off`, editing
`res`.  Context and removal lines compare against `original_lines` (with
Python's indexing, which can raise); a failed comparison returns `None`
(`ok none`); other lines are ignored. -/
def applyHunkLines (origLines : List Str) :
    List Str → Int → Int → List Str → Except PyErr (Option (List Str))
  | [], _, _, res => .ok (some res)
  | hl :: hls, cur, off, res =>
    if hl.take 1 = " ".data then
      if cur < (origLines.length : Int) then
        match pyGetInt origLines cur with
        | .error e => .error e
        | .ok ol =>
          if hl.drop 1 = ol then applyHunkLines origLines hls (cur + 1) off res
          else .ok none
      else .ok none
    else if hl.take 1 = "-".data then
      if cur < (origLines.length : Int) then
        match pyGetInt origLines cur with
        | .error e => .error e
        | .ok ol =>
          if hl.drop 1 = ol then
            match pyPopAt res (cur + off) with
            | .error e => .error e
            | .ok res' => applyHunkLines origLines hls (cur + 1) (off - 1) res'
          else .ok none
      else .ok none
    else if hl.take 1 = "+".data then
      applyHunkLines origLines hls cur (off + 1) (pyInsert res (cur + off) (hl.drop 1))
    else
      applyHunkLines origLines hls cur off res

/-- The outer loop of `apply_unified_diff` over the diff lines: unparsable
`@@` lines are skipped, each parsed hunk collects its body up to the next
`@@` line and is applied against the shared result buffer. -/
def audGo (origLines : List Str) : Nat → List Str → List Str →
    Except PyErr (Option (List Str))
  | 0, _, res => .ok (some res)
  | _ + 1, [], res => .ok (some res)
  | fuel + 1, dl :: rest, res =>
      if "@@".data.isPrefixOf dl then
        match parseHunkHeader dl with
        | none => audGo origLines fuel rest res
        | some start1 =>
          let origStart : Int := (start1 : Int) - 1
          let body := rest.takeWhile fun l => !("@@".data.isPrefixOf l)
          let rest' := rest.dropWhile fun l => !("@@".data.isPrefixOf l)
          match applyHunkLines origLines body origStart 0 res with
          | .error e => .error e
          | .ok none => .ok none
          | .ok (some res') => audGo origLines fuel rest' res'
      else audGo origLines fuel rest res

/-- `apply_unified_diff(original_content, diff_lines)`. -/
def apply_unified_diff (originalContent : Str) (diffLines : List Str) :
    Except PyErr (Option Str) :=
  let origLines := pySplitlines originalContent
  match audGo origLines (diffLines.length + 1) diffLines origLines with
  | .error e => .error e
  | .ok none => .ok none
  | .ok (some res) => .ok (some (pyJoinNl res))

example : apply_unified_diff "a\nb\nc".data
    ["@@ -2,1 +2,1 @@".data, "-b".data, "+B".data] = .ok (some "a\nB\nc".data) := by decide
example : apply_unified_diff "a\nb\nc".data
    ["@@ -1,2 +1,2 @@".data, " a".data, "-x".data, "+X".data] = .ok none := by decide
example : apply_unified_diff "".data ["@@ -0 +1 @@".data, " x".data] =
    .error .indexError := by decide

/-!
### `parse_search_replace_blocks` and `parse_unified_diff`
-/

/-- `re.compile(r'<<<<<<< SEARCH\s*$').match(line)`: the line starts with
the marker and carries only whitespace afterwards. -/
def isHeadLine (l : Str) : Bool :=
  "<<<<<<< SEARCH".data.isPrefixOf l && (l.drop 14).all isPyWs

/-- `re.compile(r'^=======\s*$').match(line)`. -/
def isDividerLine (l : Str) : Bool :=
  "=======".data.isPrefixOf l && (l.drop 7).all isPyWs

/-- `re.compile(r'>>>>>>> REPLACE\s*$').match(line)`. -/
def isTailLine (l : Str) : Bool :=
  ">>>>>>> REPLACE".data.isPrefixOf l && (l.drop 15).all isPyWs

/-- The scanning loop of `parse_search_replace_blocks`.  `prev` is the line
before the current one (`none` at the first line).  The filename is
`lines[i-1].strip()` — the *immediately* preceding line — and a block whose
filename is falsy (missing predecessor, or a predecessor that strips to the
empty string) is dropped; an incomplete block (input exhausted before the
divider or the tail marker) discards everything from its head marker on. -/
def psrbGo : Nat → Option Str → List Str → List (Str × Str × Str)
  | 0, _, _ => []
  | _ + 1, _, [] => []
  | fuel + 1, prev, l :: rest =>
      if isHeadLine l then
        let filename := match prev with
          | some p => pyStrip p
          | none => []
        let searchLines := rest.takeWhile fun x => !isDividerLine x
        match rest.dropWhile (fun x => !isDividerLine x) with
        | [] => []
        | _ :: rest2 =>
          let replaceLines := rest2.takeWhile fun x => !isTailLine x
          match rest2.dropWhile (fun x => !isTailLine x) with
          | [] => []
          | tailLine :: rest4 =>
            (if filename.isEmpty then [] else
              [(filename, pyJoinNl searchLines, pyJoinNl replaceLines)]) ++
              psrbGo fuel (some tailLine) rest4
      else psrbGo fuel (some l) rest

/-- `parse_search_replace_blocks(content)`: the produced triples are
`(filename, search_text, replace_text)`. -/
def parse_search_replace_blocks (content : Str) : List (Str × Str × Str) :=
  let lines := pySplitlines content
  psrbGo (lines.length + 1) none lines

example : parse_search_replace_blocks
    "f.py\n<<<<<<< SEARCH\nold\n=======\nnew\n>>>>>>> REPLACE".data =
    [("f.py".data, "old".data, "new".data)] := by decide
example : parse_search_replace_blocks
    "f.py\n\n<<<<<<< SEARCH\nold\n=======\nnew\n>>>>>>> REPLACE".data = [] := by decide
example : parse_search_replace_blocks
    "f.py\n<<<<<<< SEARCH\nold\n=======\nnew\n".data = [] := by decide

/-- A `(\+\+\+ |--- )(.+)$` header line of the unified-diff grammar (the
argument is a keepends line; its content must extend past the 4-character
marker). -/
def isFileHeaderLine (l : Str) : Bool :=
  let c := pyRstripSet ['\n'] l
  ("+++ ".data.isPrefixOf c || "--- ".data.isPrefixOf c) && 5 ≤ c.length

/-- Pair the header matches as the source does (`file_matches[i]`,
`file_matches[i+1]`, hunk text up to `file_matches[i+2]` or end of
content): the filename comes from the second header of each pair; the
character slice between the second header's end and the next header is
stripped and split into the diff lines. -/
def pudPairs (klines : List Str) : List Nat → List (Str × List Str)
  | _a :: b :: rest =>
    let hdr := pyRstripSet ['\n'] (klines.getD b [])
    let filename := pyStrip (hdr.drop 4)
    let endIdx := match rest with
      | c :: _ => c
      | [] => klines.length
    let seg := (((klines.drop (b + 1)).take (endIdx - (b + 1))).flatten : Str)
    (filename, pySplitlines (pyStrip seg)) :: pudPairs klines rest
  | _ => []

/-- `parse_unified_diff(content)`. -/
def parse_unified_diff (content : Str) : List (Str × List Str) :=
  let klines := pySplitKeepNl content
  pudPairs klines ((klines.enum.filter fun p => isFileHeaderLine p.2).map Prod.fst)

example : parse_unified_diff
    "--- a.py\n+++ a.py\n@@ -1,1 +1,1 @@\n-x\n+y\n".data =
    [("a.py".data, ["@@ -1,1 +1,1 @@".data, "-x".data, "+y".data])] := by decide
example : parse_unified_diff "hello\nworld\n".data = [] := by decide

/-!
### `process_edit_blocks`

The file map is modelled as an association list with Python-`dict`
semantics: lookup finds the (unique) entry, assignment to an existing key
replaces the value in place, assignment to a fresh key appends.  The source
only ever assigns keys guarded by `if filename in original_file_content`,
so no appends occur.
-/

/-- `d[k]` / `k in d` combined: `none` when the key is absent. -/
def dictLookup (d : List (Str × Str)) (k : Str) : Option Str :=
  (d.find? fun p => p.1 == k).map Prod.snd

/-- `d[k] = v`: replace the entry in place (append when, contrary to the
source's guard, the key is fresh). -/
def dictSet (d : List (Str × Str)) (k v : Str) : List (Str × Str) :=
  if (d.find? fun p => p.1 == k).isSome then
    d.map fun p => if p.1 == k then (p.1, v) else p
  else d ++ [(k, v)]

/-- One search/replace-block iteration of `process_edit_blocks`: only
filenames present in the *original* map are touched, and a result is
committed only when truthy (`if new_content:` — the empty string is
rejected like a failure). -/
def srStep (orig : List (Str × Str)) (upd : List (Str × Str)) (b : Str × Str × Str) :
    List (Str × Str) :=
  match dictLookup orig b.1 with
  | none => upd
  | some fileContent =>
    match flexible_search_and_replace b.2.1 b.2.2 fileContent with
    | some v => if v.isEmpty then upd else dictSet upd b.1 v
    | none => upd

/-- One unified-diff iteration of `process_edit_blocks` (the diff applier
may raise, and the loop has no handler). -/
def udStep (orig : List (Str × Str)) (upd : List (Str × Str)) (b : Str × List Str) :
    Except PyErr (List (Str × Str)) :=
  match dictLookup orig b.1 with
  | none => .ok upd
  | some fileContent =>
    match apply_unified_diff fileContent b.2 with
    | .error e => .error e
    | .ok none => .ok upd
    | .ok (some v) => .ok (if v.isEmpty then upd else dictSet upd b.1 v)

/-- `process_edit_blocks(content, original_file_content)`: apply every
parsed search/replace block through the cascade, then every parsed unified
diff.  `apply_unified_diff` may raise, which propagates out (there is no
handler in the source). -/
def process_edit_blocks (content : Str) (orig : List (Str × Str)) :
    Except PyErr (List (Str × Str)) :=
  (parse_unified_diff content).foldlM (udStep orig)
    ((parse_search_replace_blocks content).foldl (srStep orig) orig)

example : process_edit_blocks
    "f.py\n<<<<<<< SEARCH\nold\n=======\nnew\n>>>>>>> REPLACE".data
    [("f.py".data, "a old b".data)] = .ok [("f.py".data, "a new b".data)] := by decide
example : process_edit_blocks
    "g.py\n<<<<<<< SEARCH\nold\n=======\nnew\n>>>>>>> REPLACE".data
    [("f.py".data, "a old b".data)] = .ok [("f.py".data, "a old b".data)] := by decide
example : process_edit_blocks
    "f.py\n<<<<<<< SEARCH\na old b\n=======\n\n>>>>>>> REPLACE".data
    [("f.py".data, "a old b".data)] = .ok [("f.py".data, "a old b".data)] := by decide

/-!
## Claim C1 — exact substring replace-all
-/

/-- Number of (possibly overlapping) positions at which `s` occurs in `o`
(the empty pattern occurs once in the empty text). -/
def occurrenceCount (o s : Str) : Nat :=
  match o with
  | [] => if s.isEmpty then 1 else 0
  | _ :: rest => (if s.isPrefixOf o then 1 else 0) + occurrenceCount rest s

/-- A text with no occurrence of `s` is returned unchanged by the
replacement scanner. -/
theorem pyReplaceFuel_no_occurrence (s r : Str) (cnt : Option Nat) :
    ∀ (t : Str) (fuel : Nat), occurrenceCount t s = 0 →
      pyReplaceFuel fuel t s r cnt = t := by
  intro t
  induction t with
  | nil =>
    intro fuel _
    cases fuel with
    | zero => rfl
    | succ n => cases cnt with
      | none => rfl
      | some k => cases k <;> rfl
  | cons c rest ih =>
    intro fuel h
    have hnp : s.isPrefixOf (c :: rest) = false := by
      by_contra hb
      simp only [occurrenceCount, Bool.not_eq_false] at h hb
      simp [hb] at h
    have hrest : occurrenceCount rest s = 0 := by
      simp only [occurrenceCount, hnp] at h
      omega
    cases fuel with
    | zero => rfl
    | succ n =>
      cases cnt with
      | none => simp only [pyReplaceFuel, hnp, Bool.false_eq_true, if_false]
                rw [ih n hrest]
      | some k =>
        cases k with
        | zero => rfl
        | succ m => simp only [pyReplaceFuel, hnp, Bool.false_eq_true, if_false]
                    rw [ih n hrest]

/-- Dropping any positive number of characters removes at least the initial
occurrence from the count. -/
theorem occurrenceCount_drop_le (s : Str) :
    ∀ (t : Str) (k : Nat), occurrenceCount (t.drop k) s ≤ occurrenceCount t s := by
  intro t
  induction t with
  | nil => intro k; simp
  | cons c rest ih =>
    intro k
    cases k with
    | zero => simp
    | succ m =>
      calc occurrenceCount ((c :: rest).drop (m + 1)) s
          = occurrenceCount (rest.drop m) s := rfl
        _ ≤ occurrenceCount rest s := ih m
        _ ≤ occurrenceCount (c :: rest) s := by
            simp only [occurrenceCount]; omega

/-- If `s` is a prefix of `t`, dropping at least one character loses that
occurrence. -/
theorem occurrenceCount_drop_lt (s t : Str) (k : Nat) (hp : s.isPrefixOf t = true)
    (hk : 1 ≤ k) (ht : t ≠ []) :
    occurrenceCount (t.drop k) s + 1 ≤ occurrenceCount t s := by
  cases t with
  | nil => exact absurd rfl ht
  | cons c rest =>
    cases k with
    | zero => omega
    | succ m =>
      have h1 : occurrenceCount ((c :: rest).drop (m + 1)) s = occurrenceCount (rest.drop m) s := rfl
      have h2 := occurrenceCount_drop_le s rest m
      simp only [occurrenceCount, hp, if_true] at *
      omega

/-- One-step unfolding of the scanner at an unlimited count. -/
theorem pyReplaceFuel_cons_none (n : Nat) (c : Char) (rest s r : Str) :
    pyReplaceFuel (n + 1) (c :: rest) s r none =
      if s.isPrefixOf (c :: rest) = true then
        r ++ pyReplaceFuel n ((c :: rest).drop s.length) s r none
      else c :: pyReplaceFuel n rest s r none := rfl

/-- A spent count leaves the text unchanged. -/
theorem pyReplaceFuel_some_zero (f : Nat) (u s r : Str) :
    pyReplaceFuel f u s r (some 0) = u := by
  cases f <;> rfl

/-- One-step unfolding of the scanner at count 1: after a replacement the
remainder is emitted unchanged. -/
theorem pyReplaceFuel_cons_one (n : Nat) (c : Char) (rest s r : Str) :
    pyReplaceFuel (n + 1) (c :: rest) s r (some 1) =
      if s.isPrefixOf (c :: rest) = true then r ++ (c :: rest).drop s.length
      else c :: pyReplaceFuel n rest s r (some 1) := by
  show (if s.isPrefixOf (c :: rest) = true then
      r ++ pyReplaceFuel n ((c :: rest).drop s.length) s r (some 0)
    else c :: pyReplaceFuel n rest s r (some 1)) = _
  rw [pyReplaceFuel_some_zero]

/-- With exactly one occurrence, replace-all and replace-first coincide
(nonempty pattern: the scanners agree step by step). -/
theorem pyReplaceFuel_unique (s r : Str) (hs : s ≠ []) :
    ∀ (t : Str), occurrenceCount t s = 1 →
      pyReplaceFuel (t.length + 1) t s r none = pyReplaceFuel (t.length + 1) t s r (some 1) := by
  intro t
  induction t with
  | nil =>
    intro h
    simp only [occurrenceCount, List.isEmpty_iff] at h
    split at h
    · simp_all
    · omega
  | cons c rest ih =>
    intro h
    rw [List.length_cons, pyReplaceFuel_cons_none, pyReplaceFuel_cons_one]
    by_cases hp : s.isPrefixOf (c :: rest) = true
    · have hdrop : occurrenceCount ((c :: rest).drop s.length) s = 0 := by
        have hlen : 1 ≤ s.length := by
          cases s with
          | nil => exact absurd rfl hs
          | cons _ _ => simp
        have := occurrenceCount_drop_lt s (c :: rest) s.length hp hlen (by simp)
        omega
      rw [if_pos hp, if_pos hp, pyReplaceFuel_no_occurrence s r none _ _ hdrop]
    · have hrest : occurrenceCount rest s = 1 := by
        simp only [occurrenceCount, hp] at h
        simpa using h
      rw [if_neg hp, if_neg hp, ih hrest]

/-- The empty pattern occurs at every position. -/
theorem occurrenceCount_nil_pattern (t : Str) : occurrenceCount t [] = t.length + 1 := by
  induction t with
  | nil => rfl
  | cons c rest ih =>
    simp only [occurrenceCount, List.isPrefixOf, if_true, ih, List.length_cons]
    omega

/-- With exactly one occurrence, Python's replace-all equals replace-first. -/
theorem replaceAll_eq_replaceOnce_of_unique (t s r : Str) (h : occurrenceCount t s = 1) :
    pyReplaceAll t s r = pyReplaceOnce t s r := by
  by_cases hs : s = []
  · subst hs
    cases t with
    | nil => simp [pyReplaceAll, pyReplaceOnce, pyReplace, pyReplace.go]
    | cons c rest =>
      rw [occurrenceCount_nil_pattern] at h
      simp at h
  · have hne : s.isEmpty = false := by
      cases s with
      | nil => exact absurd rfl hs
      | cons _ _ => rfl
    unfold pyReplaceAll pyReplaceOnce pyReplace
    rw [hne]
    show pyReplaceFuel (t.length + 1) t s r none = pyReplaceFuel (t.length + 1) t s r (some 1)
    exact pyReplaceFuel_unique s r hs t h

/-- C1: when `search` occurs verbatim in `original`, the cascade's first
strategy fires and `flexible_search_and_replace` returns `original` with
*every* occurrence of `search` replaced; when the occurrence is unique this
equals the naive single-occurrence replacement
(`original.replace(search, replace, 1)`). -/
theorem C1_exact_substring_replace_all (s r o : Str) (h : pyContains o s = true) :
    flexible_search_and_replace s r o = some (pyReplaceAll o s r) ∧
      (occurrenceCount o s = 1 →
        flexible_search_and_replace s r o = some (pyReplaceOnce o s r)) := by
  have h1 : search_and_replace s r o = some (pyReplaceAll o s r) := by
    simp [search_and_replace, h]
  constructor
  · unfold flexible_search_and_replace
    rw [h1]
  · intro hu
    unfold flexible_search_and_replace
    rw [h1, replaceAll_eq_replaceOnce_of_unique o s r hu]

/-- C1 witness: the spec's own scenario, evaluated. -/
theorem C1_witness :
    pyContains "def f():\n    x = 1\n    return x\n".data "x = 1".data = true ∧
      occurrenceCount "def f():\n    x = 1\n    return x\n".data "x = 1".data = 1 ∧
      flexible_search_and_replace "x = 1".data "x = 2".data
          "def f():\n    x = 1\n    return x\n".data =
        some (pyReplaceOnce "def f():\n    x = 1\n    return x\n".data
          "x = 1".data "x = 2".data) :=
  ⟨by decide, by decide,
    (C1_exact_substring_replace_all "x = 1".data "x = 2".data
      "def f():\n    x = 1\n    return x\n".data (by decide)).2 (by decide)⟩

/-!
## Claim C9 — key set and frame of `process_edit_blocks`
-/

/-- The replacement map of `dictSet` keeps every key. -/
theorem mapReplace_keys (d : List (Str × Str)) (k v : Str) :
    ((d.map fun p => if p.1 == k then (p.1, v) else p).map Prod.fst) = d.map Prod.fst := by
  induction d with
  | nil => rfl
  | cons p rest ih =>
    simp only [List.map_cons, ih]
    by_cases hk : (p.1 == k) = true <;> simp [hk]

/-- A present key is found by the update's guard. -/
theorem find?_key_isSome (d : List (Str × Str)) (k : Str) (h : k ∈ d.map Prod.fst) :
    (d.find? fun p => p.1 == k).isSome = true := by
  induction d with
  | nil => simp at h
  | cons p rest ih =>
    by_cases hk : (p.1 == k) = true
    · simp [List.find?, hk]
    · have hr : k ∈ rest.map Prod.fst := by
        simp only [List.map_cons, List.mem_cons] at h
        rcases h with h | h
        · exact absurd (by simp [h]) hk
        · exact h
      have hkf : (p.1 == k) = false := by simpa using hk
      simp only [List.find?, hkf]
      exact ih hr

/-- `dictSet` on a present key keeps the key list unchanged. -/
theorem dictSet_keys (d : List (Str × Str)) (k v : Str) (h : k ∈ d.map Prod.fst) :
    (dictSet d k v).map Prod.fst = d.map Prod.fst := by
  unfold dictSet
  rw [if_pos (find?_key_isSome d k h)]
  exact mapReplace_keys d k v

/-- Every entry after `dictSet` either existed before or is the new pair. -/
theorem dictSet_mem (d : List (Str × Str)) (k v : Str) (fw : Str × Str)
    (h : fw ∈ dictSet d k v) : fw ∈ d ∨ (fw.1 = k ∧ fw.2 = v) := by
  unfold dictSet at h
  by_cases hf : (d.find? fun p => p.1 == k).isSome = true
  · rw [if_pos hf] at h
    rcases List.mem_map.mp h with ⟨p, hp, heq⟩
    by_cases hk : (p.1 == k) = true
    · right
      rw [if_pos hk] at heq
      have : fw.1 = p.1 ∧ fw.2 = v := by
        rw [← heq]
        exact ⟨rfl, rfl⟩
      exact ⟨this.1.trans (by simpa using hk), this.2⟩
    · left
      rw [if_neg hk] at heq
      exact heq ▸ hp
  · rw [if_neg hf] at h
    rcases List.mem_append.mp h with h | h
    · exact Or.inl h
    · right
      simp only [List.mem_singleton] at h
      simp [h]

/-- A successful lookup means the key is present. -/
theorem dictLookup_mem_keys (d : List (Str × Str)) (k fc : Str)
    (h : dictLookup d k = some fc) : k ∈ d.map Prod.fst := by
  induction d with
  | nil => cases h
  | cons p rest ih =>
    by_cases hk : (p.1 == k) = true
    · have : p.1 = k := by simpa using hk
      simp [this]
    · unfold dictLookup at h
      have hkf : (p.1 == k) = false := by simpa using hk
      simp only [List.find?, hkf] at h
      simp only [List.map_cons, List.mem_cons]
      exact Or.inr (ih h)

/-- "`f` was successfully (and non-emptily) edited by a search/replace
block of `bs`." -/
def editedBySR (orig : List (Str × Str)) (bs : List (Str × Str × Str)) (f : Str) : Prop :=
  ∃ s r fc v, (f, s, r) ∈ bs ∧ dictLookup orig f = some fc ∧
    flexible_search_and_replace s r fc = some v ∧ v ≠ []

/-- "`f` was successfully (and non-emptily) edited by a unified diff of
`ds`." -/
def editedByUD (orig : List (Str × Str)) (ds : List (Str × List Str)) (f : Str) : Prop :=
  ∃ dl fc v, (f, dl) ∈ ds ∧ dictLookup orig f = some fc ∧
    apply_unified_diff fc dl = .ok (some v) ∧ v ≠ []

/-- One search/replace step keeps the key list. -/
theorem srStep_keys (orig upd : List (Str × Str)) (b : Str × Str × Str)
    (h : upd.map Prod.fst = orig.map Prod.fst) :
    (srStep orig upd b).map Prod.fst = upd.map Prod.fst := by
  unfold srStep
  split
  · rfl
  next fc hl =>
    split
    next v he =>
      split
      · rfl
      · exact dictSet_keys upd b.1 v (by rw [h]; exact dictLookup_mem_keys orig b.1 fc hl)
    · rfl

/-- One search/replace step only adds entries justified by its own block. -/
theorem srStep_mem (orig upd : List (Str × Str)) (b : Str × Str × Str) (fw : Str × Str)
    (h : fw ∈ srStep orig upd b) : fw ∈ upd ∨ editedBySR orig [b] fw.1 := by
  unfold srStep at h
  split at h
  · exact Or.inl h
  next fc hl =>
    split at h
    next v he =>
      split at h
      · exact Or.inl h
      next hv =>
        rcases dictSet_mem upd b.1 v fw h with h1 | h1
        · exact Or.inl h1
        · right
          refine ⟨b.2.1, b.2.2, fc, v, ?_, h1.1 ▸ hl, he, ?_⟩
          · simp [h1.1]
          · cases v with
            | nil => simp at hv
            | cons _ _ => simp
    · exact Or.inl h

/-- The search/replace fold: keys are preserved and every entry either was
already present or is justified by a block of the list. -/
theorem srFold_spec (orig : List (Str × Str)) (bs : List (Str × Str × Str)) :
    ∀ upd, upd.map Prod.fst = orig.map Prod.fst →
      ((bs.foldl (srStep orig) upd).map Prod.fst = orig.map Prod.fst ∧
        ∀ fw ∈ bs.foldl (srStep orig) upd, fw ∈ upd ∨ editedBySR orig bs fw.1) := by
  induction bs with
  | nil => exact fun upd h => ⟨h, fun fw hfw => Or.inl hfw⟩
  | cons b rest ih =>
    intro upd h
    have hkeys : (srStep orig upd b).map Prod.fst = orig.map Prod.fst := by
      rw [srStep_keys orig upd b h, h]
    obtain ⟨hk, hm⟩ := ih (srStep orig upd b) hkeys
    refine ⟨hk, fun fw hfw => ?_⟩
    rcases hm fw hfw with h1 | h1
    · rcases srStep_mem orig upd b fw h1 with h2 | h2
      · exact Or.inl h2
      · right
        obtain ⟨s, r, fc, v, hmem, rest'⟩ := h2
        exact ⟨s, r, fc, v, by simp only [List.mem_singleton] at hmem; simp [hmem], rest'.1,
          rest'.2.1, rest'.2.2⟩
    · right
      obtain ⟨s, r, fc, v, hmem, rest'⟩ := h1
      exact ⟨s, r, fc, v, List.mem_cons_of_mem b hmem, rest'.1, rest'.2.1, rest'.2.2⟩

/-- One unified-diff step keeps the key list. -/
theorem udStep_keys (orig upd upd' : List (Str × Str)) (b : Str × List Str)
    (h : upd.map Prod.fst = orig.map Prod.fst)
    (hok : udStep orig upd b = .ok upd') :
    upd'.map Prod.fst = upd.map Prod.fst := by
  unfold udStep at hok
  split at hok
  · cases hok; rfl
  next fc hl =>
    split at hok
    · cases hok
    · cases hok; rfl
    next v happ =>
      cases hok
      split
      · rfl
      · exact dictSet_keys upd b.1 v (by rw [h]; exact dictLookup_mem_keys orig b.1 fc hl)

/-- One unified-diff step only adds entries justified by its own diff. -/
theorem udStep_mem (orig upd upd' : List (Str × Str)) (b : Str × List Str) (fw : Str × Str)
    (hok : udStep orig upd b = .ok upd') (h : fw ∈ upd') :
    fw ∈ upd ∨ editedByUD orig [b] fw.1 := by
  unfold udStep at hok
  split at hok
  · cases hok; exact Or.inl h
  next fc hl =>
    split at hok
    · cases hok
    · cases hok; exact Or.inl h
    next v happ =>
      cases hok
      split at h
      · exact Or.inl h
      next hv =>
        rcases dictSet_mem upd b.1 v fw h with h1 | h1
        · exact Or.inl h1
        · right
          refine ⟨b.2, fc, v, ?_, h1.1 ▸ hl, happ, ?_⟩
          · simp [h1.1]
          · cases v with
            | nil => simp at hv
            | cons _ _ => simp

/-- The unified-diff fold (in the `Except` monad): when it returns, keys
are preserved and every entry either was already present or is justified by
a diff of the list. -/
theorem udFold_spec (orig : List (Str × Str)) (ds : List (Str × List Str)) :
    ∀ upd d, upd.map Prod.fst = orig.map Prod.fst →
      ds.foldlM (udStep orig) upd = .ok d →
      (d.map Prod.fst = orig.map Prod.fst ∧
        ∀ fw ∈ d, fw ∈ upd ∨ editedByUD orig ds fw.1) := by
  induction ds with
  | nil =>
    intro upd d h hok
    cases hok
    exact ⟨h, fun fw hfw => Or.inl hfw⟩
  | cons b rest ih =>
    intro upd d h hok
    rw [List.foldlM_cons] at hok
    cases hstep : udStep orig upd b with
    | error e => rw [hstep] at hok; cases hok
    | ok upd' =>
      rw [hstep] at hok
      have hkeys : upd'.map Prod.fst = orig.map Prod.fst := by
        rw [udStep_keys orig upd upd' b h hstep, h]
      obtain ⟨hk, hm⟩ := ih upd' d hkeys hok
      refine ⟨hk, fun fw hfw => ?_⟩
      rcases hm fw hfw with h1 | h1
      · rcases udStep_mem orig upd upd' b fw hstep h1 with h2 | h2
        · exact Or.inl h2
        · right
          obtain ⟨dl, fc, v, hmem, rest'⟩ := h2
          exact ⟨dl, fc, v, by simp only [List.mem_singleton] at hmem; simp [hmem], rest'.1,
            rest'.2.1, rest'.2.2⟩
      · right
        obtain ⟨dl, fc, v, hmem, rest'⟩ := h1
        exact ⟨dl, fc, v, List.mem_cons_of_mem b hmem, rest'.1, rest'.2.1, rest'.2.2⟩

/-- C9: whenever `process_edit_blocks` returns a map, its key list is
exactly the input map's key list — blocks and diffs naming absent files
never create entries — and every entry either carries its original content
or belongs to a file successfully (and non-emptily) edited by some parsed
block or diff. -/
theorem C9_process_keys_frame (content : Str) (orig d : List (Str × Str))
    (h : process_edit_blocks content orig = .ok d) :
    d.map Prod.fst = orig.map Prod.fst ∧
      ∀ fw ∈ d, fw ∈ orig ∨
        editedBySR orig (parse_search_replace_blocks content) fw.1 ∨
        editedByUD orig (parse_unified_diff content) fw.1 := by
  unfold process_edit_blocks at h
  obtain ⟨hk1, hm1⟩ := srFold_spec orig (parse_search_replace_blocks content) orig rfl
  obtain ⟨hk2, hm2⟩ := udFold_spec orig (parse_unified_diff content) _ d hk1 h
  refine ⟨hk2, fun fw hfw => ?_⟩
  rcases hm2 fw hfw with h1 | h1
  · rcases hm1 fw h1 with h2 | h2
    · exact Or.inl h2
    · exact Or.inr (Or.inl h2)
  · exact Or.inr (Or.inr h1)

/-- C9 witness: a content with one applicable block evaluated on a
two-file map. -/
theorem C9_witness :
    process_edit_blocks "f.py\n<<<<<<< SEARCH\nold\n=======\nnew\n>>>>>>> REPLACE".data
        [("f.py".data, "a old b".data), ("g.py".data, "gg".data)] =
      .ok [("f.py".data, "a new b".data), ("g.py".data, "gg".data)] ∧
    ([("f.py".data, "a new b".data), ("g.py".data, "gg".data)].map Prod.fst =
      [("f.py".data, "a old b".data), ("g.py".data, "gg".data)].map Prod.fst ∧
      ∀ fw ∈ [("f.py".data, "a new b".data), ("g.py".data, "gg".data)],
        fw ∈ [("f.py".data, "a old b".data), ("g.py".data, "gg".data)] ∨
        editedBySR [("f.py".data, "a old b".data), ("g.py".data, "gg".data)]
          (parse_search_replace_blocks
            "f.py\n<<<<<<< SEARCH\nold\n=======\nnew\n>>>>>>> REPLACE".data) fw.1 ∨
        editedByUD [("f.py".data, "a old b".data), ("g.py".data, "gg".data)]
          (parse_unified_diff
            "f.py\n<<<<<<< SEARCH\nold\n=======\nnew\n>>>>>>> REPLACE".data) fw.1) :=
  ⟨by decide, C9_process_keys_frame _ _ _ (by decide)⟩

/-!
## Claim C10 — an empty-string edit result is discarded
-/

/-- C10: when a block's cascade application succeeds but yields the empty
string (for instance a replacement deleting the whole file), the
`if new_content:` truthiness test in `process_edit_blocks` treats it as a
failure: the file keeps its original content in the returned map. -/
theorem C10_empty_result_kept (content : Str) (orig : List (Str × Str)) (f s r fc : Str)
    (hb : parse_search_replace_blocks content = [(f, s, r)])
    (hd : parse_unified_diff content = [])
    (hl : dictLookup orig f = some fc)
    (he : flexible_search_and_replace s r fc = some []) :
    process_edit_blocks content orig = .ok orig := by
  unfold process_edit_blocks
  rw [hb, hd, List.foldlM_nil, List.foldl_cons, List.foldl_nil]
  unfold srStep
  rw [hl]
  show pure
      (match flexible_search_and_replace s r fc with
        | some v => if List.isEmpty v = true then orig else dictSet orig f v
        | none => orig) =
    Except.ok orig
  rw [he]
  rfl

/-- C10 witness: a block that replaces the entire file content with the
empty string leaves the map unchanged. -/
theorem C10_witness :
    parse_search_replace_blocks
        "f.py\n<<<<<<< SEARCH\na old b\n=======\n\n>>>>>>> REPLACE".data =
      [("f.py".data, "a old b".data, [])] ∧
    flexible_search_and_replace "a old b".data [] "a old b".data = some [] ∧
    process_edit_blocks "f.py\n<<<<<<< SEARCH\na old b\n=======\n\n>>>>>>> REPLACE".data
        [("f.py".data, "a old b".data)] = .ok [("f.py".data, "a old b".data)] :=
  ⟨by decide, by decide,
    C10_empty_result_kept _ _ "f.py".data "a old b".data [] "a old b".data
      (by decide) (by decide) (by decide) (by decide)⟩

/-!
## Claim C8 — block grammar of `parse_search_replace_blocks`
-/

/-- The claim's reading of the filename rule, as a second parser: the
filename comes from the *nearest preceding non-empty* line (skipping blank
lines), with `prevs` holding all preceding lines, most recent first.
Everything else mirrors `psrbGo`. -/
def psrbGoSpec (fuel : Nat) (prevs : List Str) (ls : List Str) : List (Str × Str × Str) :=
  match fuel with
  | 0 => []
  | fuel + 1 =>
    match ls with
    | [] => []
    | l :: rest =>
      if isHeadLine l then
        let filename := match prevs.find? (fun p => !(pyStrip p).isEmpty) with
          | some p => pyStrip p
          | none => []
        let searchLines := rest.takeWhile fun x => !isDividerLine x
        match rest.dropWhile (fun x => !isDividerLine x) with
        | [] => []
        | dv :: rest2 =>
          let replaceLines := rest2.takeWhile fun x => !isTailLine x
          match rest2.dropWhile (fun x => !isTailLine x) with
          | [] => []
          | tailLine :: rest4 =>
            (if filename.isEmpty then [] else
              [(filename, pyJoinNl searchLines, pyJoinNl replaceLines)]) ++
              psrbGoSpec fuel
                (tailLine :: replaceLines.reverse ++ dv :: searchLines.reverse ++ l :: prevs)
                rest4
      else psrbGoSpec fuel (l :: prevs) rest

/-- The claim's parser over a whole content string. -/
def parse_search_replace_blocks_spec (content : Str) : List (Str × Str × Str) :=
  let lines := pySplitlines content
  psrbGoSpec (lines.length + 1) [] lines

/-- C8, counterexample: with a blank line between the filename line and the
`<<<<<<< SEARCH` marker, the claimed rule (nearest preceding non-empty
line) yields the block with filename `f.py`, but the source reads only
`lines[i-1]` — the blank line — and silently drops the block. -/
theorem C8_counterexample :
    parse_search_replace_blocks
        "f.py\n\n<<<<<<< SEARCH\nold\n=======\nnew\n>>>>>>> REPLACE".data = [] ∧
    parse_search_replace_blocks_spec
        "f.py\n\n<<<<<<< SEARCH\nold\n=======\nnew\n>>>>>>> REPLACE".data =
      [("f.py".data, "old".data, "new".data)] ∧
    parse_search_replace_blocks
        "f.py\n\n<<<<<<< SEARCH\nold\n=======\nnew\n>>>>>>> REPLACE".data ≠
      parse_search_replace_blocks_spec
        "f.py\n\n<<<<<<< SEARCH\nold\n=======\nnew\n>>>>>>> REPLACE".data := by decide

/-- Lists all of whose elements satisfy the predicate are fully taken. -/
theorem takeWhile_all (p : α → Bool) (xs : List α) (hx : ∀ x ∈ xs, p x = true) :
    xs.takeWhile p = xs := by
  induction xs with
  | nil => rfl
  | cons x rest ih =>
    rw [List.takeWhile_cons, hx x (by simp)]
    rw [ih fun y hy => hx y (by simp [hy])]
    simp

/-- Lists all of whose elements satisfy the predicate drop to nothing. -/
theorem dropWhile_all (p : α → Bool) (xs : List α) (hx : ∀ x ∈ xs, p x = true) :
    xs.dropWhile p = [] := by
  induction xs with
  | nil => rfl
  | cons x rest ih =>
    rw [List.dropWhile_cons, hx x (by simp)]
    simp only [if_true]
    exact ih fun y hy => hx y (by simp [hy])

/-- `takeWhile` over `xs ++ y :: zs` stops exactly at `y` when all of `xs`
satisfies the predicate and `y` does not. -/
theorem takeWhile_append_stop (p : α → Bool) (xs : List α) (y : α) (zs : List α)
    (hx : ∀ x ∈ xs, p x = true) (hy : p y = false) :
    (xs ++ y :: zs).takeWhile p = xs ∧ (xs ++ y :: zs).dropWhile p = y :: zs := by
  induction xs with
  | nil => simp [List.takeWhile_cons, List.dropWhile_cons, hy]
  | cons x rest ih =>
    have hpx : p x = true := hx x (by simp)
    obtain ⟨h1, h2⟩ := ih fun z hz => hx z (by simp [hz])
    constructor
    · rw [List.cons_append, List.takeWhile_cons, hpx, h1]
      simp
    · rw [List.cons_append, List.dropWhile_cons, hpx]
      simpa using h2

/-- A non-marker line only updates the "previous line" state. -/
theorem psrbGo_skip (n : Nat) (prev : Option Str) (l : Str) (rest : List Str)
    (h : isHeadLine l = false) :
    psrbGo (n + 1) prev (l :: rest) = psrbGo n (some l) rest := by
  conv_lhs => unfold psrbGo
  simp [h]

/-- The parser on exhausted input yields nothing. -/
theorem psrbGo_nil (n : Nat) (prev : Option Str) : psrbGo n prev [] = [] := by
  cases n <;> rfl

/-- A complete block is consumed in one step: the filename is the stripped
previous line, and the block is kept only when that strip is non-empty. -/
theorem psrbGo_block (n : Nat) (p hd dv tl : Str) (sLines rLines rest : List Str)
    (hhead : isHeadLine hd = true)
    (hdiv : isDividerLine dv = true) (htail : isTailLine tl = true)
    (hs : ∀ l ∈ sLines, isDividerLine l = false)
    (hr : ∀ l ∈ rLines, isTailLine l = false) :
    psrbGo (n + 1) (some p) (hd :: (sLines ++ dv :: (rLines ++ tl :: rest))) =
      (if (pyStrip p).isEmpty then [] else
        [(pyStrip p, pyJoinNl sLines, pyJoinNl rLines)]) ++
        psrbGo n (some tl) rest := by
  have hdiv' : (!isDividerLine dv) = false := by simp [hdiv]
  have htail' : (!isTailLine tl) = false := by simp [htail]
  have hs' : ∀ l ∈ sLines, (!isDividerLine l) = true := fun l hl => by simp [hs l hl]
  have hr' : ∀ l ∈ rLines, (!isTailLine l) = true := fun l hl => by simp [hr l hl]
  obtain ⟨ht1, hd1⟩ := takeWhile_append_stop _ sLines dv (rLines ++ tl :: rest) hs' hdiv'
  obtain ⟨ht2, hd2⟩ := takeWhile_append_stop _ rLines tl rest hr' htail'
  conv_lhs => unfold psrbGo
  rw [if_pos hhead]
  simp only [ht1, hd1, ht2, hd2]

/-- An unterminated block (no divider line follows the head marker before
the input ends) is silently discarded. -/
theorem psrbGo_unterminated (n : Nat) (prev : Option Str) (hd : Str) (sLines : List Str)
    (hhead : isHeadLine hd = true)
    (hs : ∀ l ∈ sLines, isDividerLine l = false) :
    psrbGo (n + 1) prev (hd :: sLines) = [] := by
  have hs' : ∀ l ∈ sLines, (!isDividerLine l) = true := fun l hl => by simp [hs l hl]
  conv_lhs => unfold psrbGo
  rw [if_pos hhead]
  simp only [dropWhile_all _ sLines hs']

/-- C8, amended: in `parse_search_replace_blocks` the filename of a block
is `lines[i-1].strip()` — the line *immediately* before the `<<<<<<< SEARCH`
marker, with no skipping of blank lines — and the block is silently dropped
when that line is blank (or when the marker opens the content); an
unterminated trailing block (no divider before the input ends) is likewise
silently discarded. -/
theorem C8_filename_rule :
    (∀ (content p : Str) (sLines rLines : List Str),
      pySplitlines content =
          p :: "<<<<<<< SEARCH".data ::
            (sLines ++ "=======".data :: (rLines ++ [">>>>>>> REPLACE".data])) →
        isHeadLine p = false →
        (∀ l ∈ sLines, isDividerLine l = false) →
        (∀ l ∈ rLines, isTailLine l = false) →
        parse_search_replace_blocks content =
          if (pyStrip p).isEmpty then []
          else [(pyStrip p, pyJoinNl sLines, pyJoinNl rLines)]) ∧
    (∀ (content p : Str) (sLines : List Str),
      pySplitlines content = p :: "<<<<<<< SEARCH".data :: sLines →
        isHeadLine p = false →
        (∀ l ∈ sLines, isDividerLine l = false) →
        parse_search_replace_blocks content = []) := by
  constructor
  · intro content p sLines rLines hsplit hp hs hr
    unfold parse_search_replace_blocks
    rw [hsplit]
    rw [psrbGo_skip _ _ _ _ hp]
    rw [List.length_cons]
    rw [psrbGo_block _ p _ _ _ sLines rLines [] (by decide) (by decide) (by decide) hs hr]
    rw [psrbGo_nil]
    rw [List.append_nil]
  · intro content p sLines hsplit hp hs
    unfold parse_search_replace_blocks
    rw [hsplit]
    rw [psrbGo_skip _ _ _ _ hp]
    rw [List.length_cons]
    exact psrbGo_unterminated _ _ _ sLines (by decide) hs

/-- C8 witness: both halves of the filename rule applied to concrete
contents (a kept block with its filename from the immediately preceding
line, and an unterminated block that is dropped). -/
theorem C8_witness :
    parse_search_replace_blocks
        "f.py\n<<<<<<< SEARCH\nold\n=======\nnew\n>>>>>>> REPLACE".data =
      [("f.py".data, "old".data, "new".data)] ∧
    parse_search_replace_blocks "f.py\n<<<<<<< SEARCH\nold\nmore".data = [] := by
  constructor
  · have h := C8_filename_rule.1
      "f.py\n<<<<<<< SEARCH\nold\n=======\nnew\n>>>>>>> REPLACE".data
      "f.py".data ["old".data] ["new".data]
      (by decide) (by decide) (by decide) (by decide)
    rw [h]
    decide
  · exact C8_filename_rule.2 "f.py\n<<<<<<< SEARCH\nold\nmore".data "f.py".data
      ["old".data, "more".data] (by decide) (by decide) (by decide)

/-!
## Claim C7 — the ellipsis strategy `try_dotdotdots`
-/

/-- A blank literal piece is skipped. -/
theorem dotsLoop_blank (spc rpc : Str) (rest : List (Str × Str)) (acc : Str)
    (h1 : (pyStrip spc).isEmpty = true) :
    dotsLoop ((spc, rpc) :: rest) acc = dotsLoop rest acc := by
  conv_lhs => unfold dotsLoop
  rw [if_pos h1]

/-- A piece with an exact occurrence replaces its first occurrence in the
current text. -/
theorem dotsLoop_hit (spc rpc : Str) (rest : List (Str × Str)) (acc : Str)
    (h1 : (pyStrip spc).isEmpty = false) (h2 : pyContains acc spc = true) :
    dotsLoop ((spc, rpc) :: rest) acc = dotsLoop rest (pyReplaceOnce acc spc rpc) := by
  conv_lhs => unfold dotsLoop
  rw [if_neg (by simp [h1]), if_pos h2]

/-- A piece without an exact occurrence whose fuzzy fallback fails aborts
the whole loop. -/
theorem dotsLoop_miss_none (spc rpc : Str) (rest : List (Str × Str)) (acc : Str)
    (h1 : (pyStrip spc).isEmpty = false) (h2 : pyContains acc spc = false)
    (h3 : dotsFallback spc rpc acc = none) :
    dotsLoop ((spc, rpc) :: rest) acc = none := by
  conv_lhs => unfold dotsLoop
  rw [if_neg (by simp [h1]), if_neg (by simp [h2]), h3]

/-- A piece whose fuzzy fallback succeeds threads the fallback's edit. -/
theorem dotsLoop_miss_some (spc rpc : Str) (rest : List (Str × Str)) (acc acc' : Str)
    (h1 : (pyStrip spc).isEmpty = false) (h2 : pyContains acc spc = false)
    (h3 : dotsFallback spc rpc acc = some acc') :
    dotsLoop ((spc, rpc) :: rest) acc = dotsLoop rest acc' := by
  conv_lhs => unfold dotsLoop
  rw [if_neg (by simp [h1]), if_neg (by simp [h2]), h3]

/-- The piece loop is compositional: a failure anywhere wipes the whole
result (no partial edit escapes), and a success threads the edited text. -/
theorem dotsLoop_append (l1 l2 : List (Str × Str)) :
    ∀ acc, dotsLoop (l1 ++ l2) acc =
      match dotsLoop l1 acc with
      | some a => dotsLoop l2 a
      | none => none := by
  induction l1 with
  | nil => intro acc; rfl
  | cons p rest ih =>
    intro acc
    obtain ⟨spc, rpc⟩ := p
    show dotsLoop ((spc, rpc) :: (rest ++ l2)) acc = _
    by_cases h1 : (pyStrip spc).isEmpty = true
    · rw [dotsLoop_blank _ _ _ _ h1, dotsLoop_blank _ _ _ _ h1, ih acc]
    · have h1' : (pyStrip spc).isEmpty = false := by simpa using h1
      by_cases h2 : pyContains acc spc = true
      · rw [dotsLoop_hit _ _ _ _ h1' h2, dotsLoop_hit _ _ _ _ h1' h2, ih]
      · have h2' : pyContains acc spc = false := by simpa using h2
        cases h3 : dotsFallback spc rpc acc with
        | none => rw [dotsLoop_miss_none _ _ _ _ h1' h2' h3,
            dotsLoop_miss_none _ _ _ _ h1' h2' h3]
        | some a => rw [dotsLoop_miss_some _ _ _ _ _ h1' h2' h3,
            dotsLoop_miss_some _ _ _ _ _ h1' h2' h3, ih a]

/-- C7: `try_dotdotdots` yields `NoMatch` — with no partial edit visible —
whenever (1) the search text has no ellipsis marker, (2) the ellipsis split
of search and replace have different segment counts, (3) the split has a
single segment, or (4) the loop reaches a literal segment with no exact
occurrence in the current text whose fuzzy fallback fails; otherwise each
non-blank literal search segment is replaced by its counterpart once, in
order, against the current (already partially edited) text, blank segments
are skipped, and the whole strategy is the piece loop run on the original
text. -/
theorem C7_dotdotdots_control (s r o : Str) :
    (pyContains s "...".data = false → pyContains s "…".data = false →
      try_dotdotdots s r o = none) ∧
    ((dotsSplit s).length ≠ (dotsSplit r).length → try_dotdotdots s r o = none) ∧
    ((dotsSplit s).length = 1 → try_dotdotdots s r o = none) ∧
    (∀ (spc rpc : Str) (rest : List (Str × Str)) (acc : Str),
      (pyStrip spc).isEmpty = false → pyContains acc spc = false →
      dotsFallback spc rpc acc = none →
      dotsLoop ((spc, rpc) :: rest) acc = none) ∧
    (∀ (spc rpc : Str) (rest : List (Str × Str)) (acc : Str),
      ((pyStrip spc).isEmpty = true → dotsLoop ((spc, rpc) :: rest) acc = dotsLoop rest acc) ∧
      ((pyStrip spc).isEmpty = false → pyContains acc spc = true →
        dotsLoop ((spc, rpc) :: rest) acc = dotsLoop rest (pyReplaceOnce acc spc rpc)) ∧
      (∀ acc', (pyStrip spc).isEmpty = false → pyContains acc spc = false →
        dotsFallback spc rpc acc = some acc' →
        dotsLoop ((spc, rpc) :: rest) acc = dotsLoop rest acc')) ∧
    ((pyContains s "...".data = true ∨ pyContains s "…".data = true) →
      (dotsSplit s).length = (dotsSplit r).length →
      (dotsSplit s).length ≠ 1 →
      try_dotdotdots s r o = dotsLoop ((evenIdx (dotsSplit s)).zip (evenIdx (dotsSplit r))) o) := by
  refine ⟨?_, ?_, ?_, ?_, ?_, ?_⟩
  · intro h1 h2
    unfold try_dotdotdots
    simp [h1, h2]
  · intro hne
    unfold try_dotdotdots
    by_cases hc : (!pyContains s "...".data && !pyContains s "…".data) = true
    · simp [hc]
    · simp only [hc, Bool.false_eq_true, if_false]
      rw [if_pos hne]
  · intro h1
    unfold try_dotdotdots
    by_cases hc : (!pyContains s "...".data && !pyContains s "…".data) = true
    · simp [hc]
    · simp only [hc, Bool.false_eq_true, if_false]
      by_cases hne : (dotsSplit s).length ≠ (dotsSplit r).length
      · rw [if_pos hne]
      · rw [if_neg hne, if_pos h1]
  · intro spc rpc rest acc h1 h2 h3
    exact dotsLoop_miss_none spc rpc rest acc h1 h2 h3
  · intro spc rpc rest acc
    refine ⟨?_, ?_, ?_⟩
    · intro h1
      exact dotsLoop_blank spc rpc rest acc h1
    · intro h1 h2
      exact dotsLoop_hit spc rpc rest acc h1 h2
    · intro acc' h1 h2 h3
      exact dotsLoop_miss_some spc rpc rest acc acc' h1 h2 h3
  · intro hc heq hne
    unfold try_dotdotdots
    have : (!pyContains s "...".data && !pyContains s "…".data) = false := by
      rcases hc with h | h <;> simp [h]
    simp only [this, Bool.false_eq_true, if_false]
    rw [if_neg (by simpa using heq), if_neg hne]

/-- C7 witness: the spec's ellipsis scenario plus a failing-segment case,
all via the control theorem. -/
theorem C7_witness :
    try_dotdotdots "a\nb".data "A\nB".data "a\nxx\nb\n".data = none ∧
    try_dotdotdots "a...b".data "A...B...C".data "ab".data = none ∧
    try_dotdotdots "qqqq...zzzz".data "Q...Z".data "ab\n".data = none ∧
    try_dotdotdots "a\n...\nb".data "A\n...\nB".data "a\nxx\nb\n".data =
      dotsLoop ((evenIdx (dotsSplit "a\n...\nb".data)).zip
        (evenIdx (dotsSplit "A\n...\nB".data))) "a\nxx\nb\n".data := by
  refine ⟨?_, ?_, ?_, ?_⟩
  · exact (C7_dotdotdots_control "a\nb".data "A\nB".data "a\nxx\nb\n".data).1
      (by decide) (by decide)
  · exact (C7_dotdotdots_control "a...b".data "A...B...C".data "ab".data).2.1 (by decide)
  · have h := (C7_dotdotdots_control "qqqq...zzzz".data "Q...Z".data "ab\n".data).2.2.2.2.2
      (by decide) (by decide) (by decide)
    rw [h]
    have h4 := (C7_dotdotdots_control "qqqq...zzzz".data "Q...Z".data "ab\n".data).2.2.2.1
      "qqqq".data "Q".data [("zzzz".data, "Z".data)] "ab\n".data
      (by decide) (by decide) (by decide)
    rw [show (evenIdx (dotsSplit "qqqq...zzzz".data)).zip (evenIdx (dotsSplit "Q...Z".data)) =
      ("qqqq".data, "Q".data) :: [("zzzz".data, "Z".data)] from by decide]
    exact h4
  · exact (C7_dotdotdots_control "a\n...\nb".data "A\n...\nB".data "a\nxx\nb\n".data).2.2.2.2.2
      (Or.inl (by decide)) (by decide) (by decide)

/-!
## Claim C4 — context/removal mismatch in `apply_unified_diff`
-/

/-- C4, counterexample: on an empty original with the parseable header
`@@ -0 +1 @@` the 0-based cursor is `-1`, and the context check evaluates
`original_lines[-1]` on an empty list — an `IndexError` escapes instead of
the claimed `NoMatch` return. -/
theorem C4_counterexample :
    apply_unified_diff [] ["@@ -0 +1 @@".data, " x".data] = .error .indexError ∧
      apply_unified_diff [] ["@@ -0 +1 @@".data, " x".data] ≠
        .ok (none : Option Str) := by decide

/-- A context (leading space) or removal (leading `-`) hunk line. -/
def isCR (l : Str) : Bool := l.take 1 = " ".data || l.take 1 = "-".data

/-- Number of context/removal lines (each consumes one original line). -/
def crCount (ls : List Str) : Nat := (ls.filter isCR).length

/-- `l[i]` for a nonnegative in-range index. -/
theorem pyGetInt_lt (l : List α) (n : Nat) (h : n < l.length) :
    pyGetInt l (n : Int) = .ok (l.get ⟨n, h⟩) := by
  unfold pyGetInt
  have h0 : ¬((n : Int) < 0) := by omega
  simp only [h0, if_false]
  rw [dif_pos ⟨by omega, by exact_mod_cast h⟩]
  congr 1

/-- `l[i]` for a nonnegative out-of-range index. -/
theorem pyGetInt_ge (l : List α) (n : Nat) (h : l.length ≤ n) :
    pyGetInt l (n : Int) = .error .indexError := by
  unfold pyGetInt
  have h0 : ¬((n : Int) < 0) := by omega
  simp only [h0, if_false]
  rw [dif_neg]
  intro hc
  have := hc.2
  omega

/-- A valid `pop` returns the shortened list. -/
theorem pyPopAt_valid (l : List α) (i : Int) (h0 : 0 ≤ i) (h1 : i < l.length) :
    pyPopAt l i = .ok (l.take i.toNat ++ l.drop (i.toNat + 1)) := by
  unfold pyPopAt
  have h2 : ¬(i < 0) := by omega
  simp only [h2, if_false]
  rw [if_pos ⟨h0, h1⟩]

/-- Popping a valid index shortens the list by one. -/
theorem pop_length (l : List α) (i : Int) (h0 : 0 ≤ i) (h1 : i < l.length) :
    (l.take i.toNat ++ l.drop (i.toNat + 1)).length + 1 = l.length := by
  have : i.toNat < l.length := by omega
  simp [List.length_take, List.length_drop]
  omega

/-- `insert` always grows the list by one. -/
theorem pyInsert_length (l : List α) (i : Int) (x : α) :
    (pyInsert l i x).length = l.length + 1 := by
  unfold pyInsert
  by_cases h : i < 0
  · simp only [h, if_true]
    have : l.length - (-i).toNat ≤ l.length := by omega
    simp [List.length_take, List.length_drop]
    omega
  · simp only [h, if_false]
    have : min l.length i.toNat ≤ l.length := by omega
    simp [List.length_take, List.length_drop]
    omega

/-- `crCount` over a one-longer prefix. -/
theorem crCount_cons_take (hl : Str) (hls : List Str) (j : Nat) :
    crCount ((hl :: hls).take (j + 1)) =
      (if isCR hl = true then 1 else 0) + crCount (hls.take j) := by
  rw [List.take_succ_cons]
  unfold crCount
  rw [List.filter_cons]
  by_cases h : isCR hl = true
  · simp [h]
    omega
  · simp [h]

/-- The hunk-body loop returns `None` as soon as it reaches the first
context/removal line whose text differs from the original line at the
running cursor (all earlier context/removal lines having matched; the
cursor is `start + number of earlier context/removal lines`). -/
theorem applyHunkLines_mismatch (origLines : List Str) (bad : Str)
    (hbad : isCR bad = true) :
    ∀ (body : List Str) (k : Nat) (cur : Nat) (off : Int) (res : List Str),
      (res.length : Int) = origLines.length + off →
      0 ≤ (cur : Int) + off →
      body.get? k = some bad →
      origLines.get? (cur + crCount (body.take k)) ≠ some (bad.drop 1) →
      (∀ j, j < k → ∀ l, body.get? j = some l → isCR l = true →
        origLines.get? (cur + crCount (body.take j)) = some (l.drop 1)) →
      applyHunkLines origLines body (cur : Int) off res = .ok none := by
  intro body
  induction body with
  | nil =>
    intro k cur off res _ _ hk
    simp at hk
  | cons hl hls ih =>
    intro k cur off res hlen hoff hk hmis hgood
    cases k with
    | zero =>
      have hbadeq : hl = bad := by simpa using hk
      subst hbadeq
      have hmis' : origLines.get? cur ≠ some (hl.drop 1) := by
        simpa [crCount] using hmis
      conv_lhs => unfold applyHunkLines
      by_cases hctx : hl.take 1 = " ".data
      · rw [if_pos hctx]
        by_cases hcl : cur < origLines.length
        · rw [if_pos (by exact_mod_cast hcl), pyGetInt_lt origLines cur hcl]
          have hne : ¬(hl.drop 1 = origLines.get ⟨cur, hcl⟩) := by
            intro he
            exact hmis' (by rw [List.get?_eq_get hcl, he])
          show (if hl.drop 1 = origLines.get ⟨cur, hcl⟩ then
              applyHunkLines origLines hls ((cur : Int) + 1) off res
            else Except.ok none) = Except.ok none
          rw [if_neg hne]
        · rw [if_neg (by omega)]
      · have hrem : hl.take 1 = "-".data := by
          simp only [isCR, Bool.or_eq_true, decide_eq_true_eq] at hbad
          rcases hbad with h | h
          · exact absurd h hctx
          · exact h
        rw [if_neg hctx, if_pos hrem]
        by_cases hcl : cur < origLines.length
        · rw [if_pos (by exact_mod_cast hcl), pyGetInt_lt origLines cur hcl]
          have hne : ¬(hl.drop 1 = origLines.get ⟨cur, hcl⟩) := by
            intro he
            exact hmis' (by rw [List.get?_eq_get hcl, he])
          show (if hl.drop 1 = origLines.get ⟨cur, hcl⟩ then
              (match pyPopAt res ((cur : Int) + off) with
                | Except.error e => Except.error e
                | Except.ok res' => applyHunkLines origLines hls ((cur : Int) + 1) (off - 1) res')
            else Except.ok none) = Except.ok none
          rw [if_neg hne]
        · rw [if_neg (by omega)]
    | succ j =>
      have hk' : hls.get? j = some bad := by simpa using hk
      have hmisX : origLines.get? (cur + ((if isCR hl = true then 1 else 0) +
          crCount (hls.take j))) ≠ some (bad.drop 1) := by
        rw [← crCount_cons_take]
        exact hmis
      have hgoodX : ∀ j', j' < j → ∀ l, hls.get? j' = some l → isCR l = true →
          origLines.get? (cur + ((if isCR hl = true then 1 else 0) +
            crCount (hls.take j'))) = some (l.drop 1) := by
        intro j' hj' l hl' hcr'
        rw [← crCount_cons_take]
        exact hgood (j' + 1) (by omega) l (by simpa using hl') hcr'
      conv_lhs => unfold applyHunkLines
      by_cases hctx : hl.take 1 = " ".data
      · have hcr : isCR hl = true := by simp [isCR, hctx]
        have hg0 : origLines.get? cur = some (hl.drop 1) := by
          simpa [crCount] using hgood 0 (Nat.succ_pos j) hl rfl hcr
        have hcl : cur < origLines.length := by
          by_contra hcge
          rw [List.get?_eq_none.mpr (by omega)] at hg0
          cases hg0
        rw [if_pos hctx, if_pos (by exact_mod_cast hcl), pyGetInt_lt origLines cur hcl]
        have hgeteq : hl.drop 1 = origLines.get ⟨cur, hcl⟩ := by
          rw [List.get?_eq_get hcl] at hg0
          exact (Option.some_inj.mp hg0).symm
        show (if hl.drop 1 = origLines.get ⟨cur, hcl⟩ then
            applyHunkLines origLines hls ((cur : Int) + 1) off res
          else Except.ok none) = Except.ok none
        rw [if_pos hgeteq]
        rw [show ((cur : Int) + 1) = ((cur + 1 : Nat) : Int) from by push_cast; ring]
        refine ih j (cur + 1) off res hlen (by omega) hk' ?_ ?_
        · rw [show cur + 1 + crCount (hls.take j) = cur + (1 + crCount (hls.take j)) from by omega]
          simpa [hcr] using hmisX
        · intro j' hj' l hl' hcr'
          rw [show cur + 1 + crCount (hls.take j') = cur + (1 + crCount (hls.take j')) from by
            omega]
          simpa [hcr] using hgoodX j' hj' l hl' hcr'
      · by_cases hrem : hl.take 1 = "-".data
        · have hcr : isCR hl = true := by simp [isCR, hrem]
          have hg0 : origLines.get? cur = some (hl.drop 1) := by
            simpa [crCount] using hgood 0 (Nat.succ_pos j) hl rfl hcr
          have hcl : cur < origLines.length := by
            by_contra hcge
            rw [List.get?_eq_none.mpr (by omega)] at hg0
            cases hg0
          rw [if_neg hctx, if_pos hrem, if_pos (by exact_mod_cast hcl),
            pyGetInt_lt origLines cur hcl]
          have hgeteq : hl.drop 1 = origLines.get ⟨cur, hcl⟩ := by
            rw [List.get?_eq_get hcl] at hg0
            exact (Option.some_inj.mp hg0).symm
          have hpoplt : (cur : Int) + off < res.length := by omega
          show (if hl.drop 1 = origLines.get ⟨cur, hcl⟩ then
              (match pyPopAt res ((cur : Int) + off) with
                | Except.error e => Except.error e
                | Except.ok res' => applyHunkLines origLines hls ((cur : Int) + 1) (off - 1) res')
            else Except.ok none) = Except.ok none
          rw [if_pos hgeteq, pyPopAt_valid res ((cur : Int) + off) hoff hpoplt]
          show applyHunkLines origLines hls ((cur : Int) + 1) (off - 1)
              (res.take ((cur : Int) + off).toNat ++
                res.drop (((cur : Int) + off).toNat + 1)) = Except.ok none
          have hplen := pop_length res ((cur : Int) + off) hoff hpoplt
          rw [show ((cur : Int) + 1) = ((cur + 1 : Nat) : Int) from by push_cast; ring]
          refine ih j (cur + 1) (off - 1) _ (by omega) (by omega) hk' ?_ ?_
          · rw [show cur + 1 + crCount (hls.take j) = cur + (1 + crCount (hls.take j)) from by
              omega]
            simpa [hcr] using hmisX
          · intro j' hj' l hl' hcr'
            rw [show cur + 1 + crCount (hls.take j') = cur + (1 + crCount (hls.take j')) from by
              omega]
            simpa [hcr] using hgoodX j' hj' l hl' hcr'
        · have hcr : isCR hl = false := by simp [isCR, hctx, hrem]
          by_cases hadd : hl.take 1 = "+".data
          · rw [if_neg hctx, if_neg hrem, if_pos hadd]
            have hlen' : ((pyInsert res ((cur : Int) + off) (hl.drop 1)).length : Int) =
                origLines.length + (off + 1) := by
              rw [pyInsert_length]
              push_cast
              omega
            refine ih j cur (off + 1) _ hlen' (by omega) hk' ?_ ?_
            · simpa [hcr] using hmisX
            · intro j' hj' l hl' hcr'
              simpa [hcr] using hgoodX j' hj' l hl' hcr'
          · rw [if_neg hctx, if_neg hrem, if_neg hadd]
            refine ih j cur off res hlen hoff hk' ?_ ?_
            · simpa [hcr] using hmisX
            · intro j' hj' l hl' hcr'
              simpa [hcr] using hgoodX j' hj' l hl' hcr'

/-- C4, amended: for a diff consisting of one parsed hunk whose header
start is at least 1 (so the 0-based cursor is never negative and Python's
negative-index wrap cannot occur), if the body's first mismatching
context/removal line exists — i.e. some context/removal line differs from
the original line at the cursor while all earlier ones match — then
`apply_unified_diff` returns `NoMatch` (`None`), not a partial result and
not an exception.  (With a header start of 0 the cursor is `-1` and the
comparison can instead raise `IndexError`, per the counterexample.) -/
theorem C4_hunk_mismatch_rejects (o : Str) (header : Str) (body : List Str)
    (st1 : Nat) (k : Nat) (bad : Str)
    (hhdr : "@@".data.isPrefixOf header = true)
    (hparse : parseHunkHeader header = some st1)
    (hst : 1 ≤ st1)
    (hbody : ∀ l ∈ body, ("@@".data.isPrefixOf l) = false)
    (hk : body.get? k = some bad)
    (hbad : isCR bad = true)
    (hmis : (pySplitlines o).get? ((st1 - 1) + crCount (body.take k)) ≠ some (bad.drop 1))
    (hgood : ∀ j, j < k → ∀ l, body.get? j = some l → isCR l = true →
      (pySplitlines o).get? ((st1 - 1) + crCount (body.take j)) = some (l.drop 1)) :
    apply_unified_diff o (header :: body) = .ok none := by
  have hbody' : ∀ l ∈ body, (!("@@".data.isPrefixOf l)) = true := fun l hl => by
    simp [hbody l hl]
  have happ : applyHunkLines (pySplitlines o) body ((st1 : Int) - 1) 0 (pySplitlines o) =
      .ok none := by
    have hcast : ((st1 : Int) - 1) = ((st1 - 1 : Nat) : Int) := by omega
    rw [hcast]
    exact applyHunkLines_mismatch (pySplitlines o) bad hbad body k (st1 - 1) 0
      (pySplitlines o) (by omega) (by omega) hk hmis hgood
  unfold apply_unified_diff
  dsimp only
  conv_lhs => unfold audGo
  rw [if_pos hhdr, hparse]
  show (match
      (match applyHunkLines (pySplitlines o)
          (body.takeWhile fun l => !("@@".data.isPrefixOf l)) ((st1 : Int) - 1) 0
          (pySplitlines o) with
        | Except.error e => Except.error e
        | Except.ok none => Except.ok none
        | Except.ok (some res') =>
            audGo (pySplitlines o) (body.length + 1)
              (body.dropWhile fun l => !("@@".data.isPrefixOf l)) res') with
    | Except.error e => Except.error e
    | Except.ok none => Except.ok none
    | Except.ok (some res) => Except.ok (some (pyJoinNl res))) = Except.ok none
  rw [takeWhile_all _ body hbody', happ]

/-- C4 witness: a single well-formed hunk whose removal line does not match
the original is rejected with `None`. -/
theorem C4_witness :
    apply_unified_diff "a\nb\nc".data
        ["@@ -1,2 +1,2 @@".data, " a".data, "-x".data, "+X".data] = .ok none := by
  have h := C4_hunk_mismatch_rejects "a\nb\nc".data "@@ -1,2 +1,2 @@".data
    [" a".data, "-x".data, "+X".data] 1 1 "-x".data
    (by decide) (by decide) (by decide) (by decide) (by decide) (by decide)
    (by decide)
    (by
      intro j hj l hl hcr
      interval_cases j
      · simp at hl
        subst hl
        decide)
  exact h

/-!
## Claim C3 — exception absorption in the cascade
-/

/-- The claim's version of the comprehensive-preprocessing sub-cascade: an
exception inside a sub-strategy is converted to a no-match *for that
sub-strategy* and the scan continues with the next sub-strategy.  (The
source has no such handler inside `apply_comprehensive_preprocessing`; this
definition follows the claim's words, for comparison.) -/
def apply_comprehensive_preprocessing_spec (s r o : Str) : Except PyErr (Option Str) :=
  let r1 := try_blank_line_stripping_only s r o
  if optTruthy r1 then .ok r1 else
  let r2 := try_whitespace_normalization s r o
  if optTruthy r2 then .ok r2 else
  let r3 := match try_indent_alignment s r o with
    | .error _ => none
    | .ok v => v
  if optTruthy r3 then .ok r3 else
  let r4 := try_relative_indentation s r o
  if optTruthy r4 then .ok r4 else
  let r5 := try_relative_with_blank_stripping s r o
  if optTruthy r5 then .ok r5 else
  let r6 := try_relative_with_whitespace_norm s r o
  if optTruthy r6 then .ok r6 else
  let r7 := try_all_preprocessing s r o
  if optTruthy r7 then .ok r7 else .ok none

/-- C3, counterexample: with `search = "  a\n  b"`, `replace = " "`,
`original = "a\nb"`, the first two sub-strategies fail (the whitespace
normalisation even matches, but its result is the empty string and is
discarded as falsy), and `try_indent_alignment` raises `IndexError`
(`aligned_replace_lines[1]` with a single replacement line).  The exception
propagates out of `apply_comprehensive_preprocessing` — the sub-cascade does
*not* convert it to a no-match and continue, as the claim asserts it
would. -/
theorem C3_counterexample :
    apply_comprehensive_preprocessing "  a\n  b".data " ".data "a\nb".data =
      .error .indexError ∧
    apply_comprehensive_preprocessing_spec "  a\n  b".data " ".data "a\nb".data = .ok none ∧
    apply_comprehensive_preprocessing "  a\n  b".data " ".data "a\nb".data ≠
      apply_comprehensive_preprocessing_spec "  a\n  b".data " ".data "a\nb".data := by
  decide

/-- C3, amended: the *top-level* cascade does absorb every strategy
exception (each strategy runs inside `try/except Exception`, and the
cascade continues with the next top-level strategy) — but an exception in a
sub-strategy of the comprehensive-preprocessing step aborts that whole step
(no later sub-strategy runs) and is absorbed only at the top level: the
cascade then behaves exactly as if step 5 were absent. -/
theorem C3_preprocessing_error_absorbed (s r o : Str) (e : PyErr)
    (h : apply_comprehensive_preprocessing s r o = .error e) :
    flexible_search_and_replace s r o = flexible_without_preprocessing s r o := by
  unfold flexible_search_and_replace flexible_without_preprocessing
  rw [h]

/-- C3 witness: at the counterexample input the cascade equals its
step-5-free variant and (all other strategies failing too) returns
`None` rather than propagating the `IndexError`. -/
theorem C3_witness :
    flexible_search_and_replace "  a\n  b".data " ".data "a\nb".data =
      flexible_without_preprocessing "  a\n  b".data " ".data "a\nb".data ∧
    flexible_search_and_replace "  a\n  b".data " ".data "a\nb".data = none :=
  ⟨C3_preprocessing_error_absorbed "  a\n  b".data " ".data "a\nb".data .indexError
    (by decide), by decide⟩

/-!
## Claim C2 — the RelativeIndenter round trip
-/

/-- C2, counterexample: the whitespace-only line `" \n"` is marker-free,
but `make_absolute` never re-indents a blank content line, so the round
trip returns `"\n"`, not `" \n"`.  A second marker-free failure:
`"\ta\n  b\n"` mixes tab and space indentation, and the reconstruction
`"\ta\n\t b\n"` differs (the relative encoding only transfers indent
*lengths* across lines, re-using the previous line's characters). -/
theorem C2_counterexample :
    ("←" : String).data.all (fun m => !" \n".data.contains m) = true ∧
    (make_relative '←' " \n".data).bind (make_absolute '←') = some "\n".data ∧
    (make_relative '←' " \n".data).bind (make_absolute '←') ≠ some " \n".data ∧
    ("←" : String).data.all (fun m => !"\ta\n  b\n".data.contains m) = true ∧
    (make_relative '←' "\ta\n  b\n".data).bind (make_absolute '←') =
      some "\ta\n\t b\n".data ∧
    (make_relative '←' "\ta\n  b\n".data).bind (make_absolute '←') ≠
      some "\ta\n  b\n".data := by decide

/-- Characters that Python's `splitlines` treats as line breaks. -/
def isBreakChar (c : Char) : Bool :=
  c == '\n' || c == '\r' || c == Char.ofNat 11 || c == Char.ofNat 12 ||
  c == Char.ofNat 0x1c || c == Char.ofNat 0x1d || c == Char.ofNat 0x1e ||
  c == Char.ofNat 0x85 || c == Char.ofNat 0x2028 || c == Char.ofNat 0x2029

/-- A clean line body: free of line breaks and of the marker, and blank
only when empty (no nonempty whitespace-only line body). -/
def lineBody (m : Char) (b : Str) : Prop :=
  (∀ c ∈ b, isBreakChar c = false ∧ c ≠ m) ∧ (pyLstrip b = [] → b = [])

/-- The leading-whitespace indent of a keepends line, as the source
computes it (trailing `\n`/`\r` stripped first). -/
def indentOfLine (l : Str) : Str := (pyRstripSet ['\n', '\r'] l).takeWhile isPyWs

/-- Consecutive lines must have prefix-compatible indents for the relative
encoding to be invertible (the previous indent state is threaded through). -/
def indentChainB : Str → List Str → Bool
  | _, [] => true
  | prev, l :: rest =>
    (prev.isPrefixOf (indentOfLine l) || (indentOfLine l).isPrefixOf prev) &&
      indentChainB (indentOfLine l) rest

/-- One-step equation: the split worker flushes a chunk at a newline. -/
theorem skn_go_nl (cur rest : Str) :
    pySplitKeepNl.go cur ('\n' :: rest) = ('\n' :: cur).reverse :: pySplitKeepNl.go [] rest := rfl

/-- One-step equation: any other character is accumulated. -/
theorem skn_go_other (cur rest : Str) (c : Char) (h : c ≠ '\n') :
    pySplitKeepNl.go cur (c :: rest) = pySplitKeepNl.go (c :: cur) rest := by
  simp [pySplitKeepNl.go, h]

/-- One-step equation: end of input flushes a nonempty accumulator. -/
theorem skn_go_nil (cur : Str) :
    pySplitKeepNl.go cur [] = if cur.isEmpty then [] else [cur.reverse] := rfl

/-- Splitting with kept line ends loses no characters. -/
theorem skn_go_flatten : ∀ (u cur : Str), (pySplitKeepNl.go cur u).flatten = cur.reverse ++ u
  | [], cur => by
    rw [skn_go_nil]
    cases cur <;> simp
  | c :: rest, cur => by
    by_cases h : c = '\n'
    · subst h
      rw [skn_go_nl]
      simp [skn_go_flatten rest []]
    · rw [skn_go_other cur rest c h, skn_go_flatten rest (c :: cur)]
      simp

/-- `"".join(text.splitlines(keepends=True)) == text`. -/
theorem skn_flatten (t : Str) : (pySplitKeepNl t).flatten = t := by
  have h := skn_go_flatten t []
  simpa [pySplitKeepNl] using h

theorem skn_nil : pySplitKeepNl [] = [] := rfl

theorem skn_go_break : ∀ (d : Str) (cur u : Str), (∀ c ∈ d, c ≠ '\n') →
    pySplitKeepNl.go cur (d ++ '\n' :: u) =
      (cur.reverse ++ d ++ ['\n']) :: pySplitKeepNl.go [] u
  | [], cur, u, _ => by
    rw [List.nil_append, skn_go_nl]
    simp
  | c :: d', cur, u, h => by
    have hc : c ≠ '\n' := h c (List.mem_cons_self c d')
    rw [List.cons_append, skn_go_other _ _ c hc,
      skn_go_break d' (c :: cur) u (fun x hx => h x (List.mem_cons_of_mem c hx))]
    simp

/-- A newline-free prefix followed by `\n` forms exactly one kept line. -/
theorem skn_break (d u : Str) (h : ∀ c ∈ d, c ≠ '\n') :
    pySplitKeepNl (d ++ '\n' :: u) = (d ++ ['\n']) :: pySplitKeepNl u := by
  have h1 := skn_go_break d [] u h
  simpa [pySplitKeepNl] using h1

theorem skn_go_nonl : ∀ (u cur : Str), (∀ c ∈ u, c ≠ '\n') →
    pySplitKeepNl.go cur u = if (cur.reverse ++ u).isEmpty then [] else [cur.reverse ++ u]
  | [], cur, _ => by
    rw [skn_go_nil]
    cases cur <;> simp
  | c :: u', cur, h => by
    have hc : c ≠ '\n' := h c (List.mem_cons_self c u')
    rw [skn_go_other _ _ c hc,
      skn_go_nonl u' (c :: cur) (fun x hx => h x (List.mem_cons_of_mem c hx))]
    simp

/-- A nonempty newline-free text is a single kept line. -/
theorem skn_single (u : Str) (hne : u ≠ []) (h : ∀ c ∈ u, c ≠ '\n') :
    pySplitKeepNl u = [u] := by
  have h1 := skn_go_nonl u [] h
  simp only [List.reverse_nil, List.nil_append] at h1
  have h2 : pySplitKeepNl u = pySplitKeepNl.go [] u := rfl
  rw [h2, h1, if_neg]
  simp [hne]

/-- Shape of a keepends split: every chunk but the last is a newline-free
body plus `\n`; the last may also be a nonempty newline-free remainder. -/
def chunksOK : List Str → Prop
  | [] => True
  | [l] => l ≠ [] ∧ ∃ b, (l = b ++ ['\n'] ∨ l = b) ∧ ∀ c ∈ b, c ≠ '\n'
  | l :: rest => (∃ b, l = b ++ ['\n'] ∧ ∀ c ∈ b, c ≠ '\n') ∧ chunksOK rest

theorem skn_go_chunksOK : ∀ (u cur : Str), (∀ c ∈ cur, c ≠ '\n') →
    chunksOK (pySplitKeepNl.go cur u)
  | [], cur, hcur => by
    rw [skn_go_nil]
    cases cur with
    | nil => simp [chunksOK]
    | cons c cs =>
      simp only [List.isEmpty_cons, if_false, Bool.false_eq_true]
      refine ⟨by simp, (c :: cs).reverse, Or.inr rfl, ?_⟩
      intro x hx
      exact hcur x (List.mem_reverse.mp hx)
  | c :: rest, cur, hcur => by
    by_cases h : c = '\n'
    · subst h
      rw [skn_go_nl]
      have ih := skn_go_chunksOK rest [] (by simp)
      have hhead : ('\n' :: cur).reverse = cur.reverse ++ ['\n'] := by simp
      cases hgo : pySplitKeepNl.go [] rest with
      | nil =>
        refine ⟨by simp, cur.reverse, Or.inl hhead, ?_⟩
        intro x hx
        exact hcur x (List.mem_reverse.mp hx)
      | cons y ys =>
        rw [hgo] at ih
        exact ⟨⟨cur.reverse, hhead, fun x hx => hcur x (List.mem_reverse.mp hx)⟩, ih⟩
    · rw [skn_go_other cur rest c h]
      refine skn_go_chunksOK rest (c :: cur) ?_
      intro x hx
      rcases List.mem_cons.mp hx with rfl | hx
      · exact h
      · exact hcur x hx

/-- The keepends split of any text is well-shaped. -/
theorem skn_chunksOK (t : Str) : chunksOK (pySplitKeepNl t) := by
  have h := skn_go_chunksOK t [] (by simp)
  simpa [pySplitKeepNl] using h

theorem skn_go_chars : ∀ (u cur : Str), ∀ l ∈ pySplitKeepNl.go cur u, ∀ c ∈ l, c ∈ cur ∨ c ∈ u
  | [], cur => by
    rw [skn_go_nil]
    cases cur with
    | nil => simp
    | cons x xs =>
      intro l hl c hc
      simp only [List.isEmpty_cons, if_false, Bool.false_eq_true, List.mem_singleton] at hl
      subst hl
      exact Or.inl (List.mem_reverse.mp hc)
  | u0 :: rest, cur => by
    intro l hl c hc
    by_cases h : u0 = '\n'
    · subst h
      rw [skn_go_nl] at hl
      rcases List.mem_cons.mp hl with rfl | hl
      · rcases List.mem_cons.mp (List.mem_reverse.mp hc) with rfl | hc
        · right; exact List.mem_cons_self _ _
        · left; exact hc
      · rcases skn_go_chars rest [] l hl c hc with hc | hc
        · exact absurd hc (List.not_mem_nil c)
        · right; exact List.mem_cons_of_mem _ hc
    · rw [skn_go_other cur rest u0 h] at hl
      rcases skn_go_chars rest (u0 :: cur) l hl c hc with hc | hc
      · rcases List.mem_cons.mp hc with rfl | hc
        · right; exact List.mem_cons_self _ _
        · left; exact hc
      · right; exact List.mem_cons_of_mem _ hc

/-- Every character of a kept line comes from the split text. -/
theorem skn_chars (t : Str) : ∀ l ∈ pySplitKeepNl t, ∀ c ∈ l, c ∈ t := by
  intro l hl c hc
  have h2 : pySplitKeepNl t = pySplitKeepNl.go [] t := rfl
  rw [h2] at hl
  rcases skn_go_chars t [] l hl c hc with hc | hc
  · exact absurd hc (List.not_mem_nil c)
  · exact hc

theorem takeWhile_len_eq (p : Char → Bool) (x : Str) :
    x.length - (x.dropWhile p).length = (x.takeWhile p).length := by
  have h : (x.takeWhile p).length + (x.dropWhile p).length = x.length := by
    rw [← List.length_append, List.takeWhile_append_dropWhile]
  omega

theorem take_takeWhile_len (p : Char → Bool) (x : Str) :
    x.take ((x.takeWhile p).length) = x.takeWhile p := by
  have h := List.take_left (x.takeWhile p) (x.dropWhile p)
  rwa [List.takeWhile_append_dropWhile] at h

theorem drop_takeWhile_len (p : Char → Bool) (x : Str) :
    x.drop ((x.takeWhile p).length) = x.dropWhile p := by
  have h := List.drop_left (x.takeWhile p) (x.dropWhile p)
  rwa [List.takeWhile_append_dropWhile] at h

theorem dropWhile_eq_self_of (p : Char → Bool) (x : Str) (h : ∀ c ∈ x, p c = false) :
    x.dropWhile p = x := by
  cases x with
  | nil => rfl
  | cons c cs =>
    rw [List.dropWhile_cons]
    simp [h c (List.mem_cons_self c cs)]

/-- `rstrip(set)` is the identity on set-free strings. -/
theorem pyRstripSet_clean (s : List Char) (x : Str) (h : ∀ c ∈ x, s.contains c = false) :
    pyRstripSet s x = x := by
  have h1 : x.reverse.dropWhile s.contains = x.reverse :=
    dropWhile_eq_self_of _ _ (fun c hc => h c (List.mem_reverse.mp hc))
  rw [pyRstripSet, h1, List.reverse_reverse]

/-- `rstrip(set)` removes exactly a final `\n` from a set-free body. -/
theorem pyRstripSet_body_nl (s : List Char) (x : Str) (hnl : s.contains '\n' = true)
    (h : ∀ c ∈ x, s.contains c = false) :
    pyRstripSet s (x ++ ['\n']) = x := by
  rw [pyRstripSet, List.reverse_append]
  simp only [List.reverse_cons, List.reverse_nil, List.nil_append, List.singleton_append]
  rw [List.dropWhile_cons]
  simp only [hnl, if_true]
  have h1 : x.reverse.dropWhile s.contains = x.reverse :=
    dropWhile_eq_self_of _ _ (fun c hc => h c (List.mem_reverse.mp hc))
  rw [h1, List.reverse_reverse]

theorem prefix_append_drop (p x : Str) (h : p.isPrefixOf x = true) :
    p ++ x.drop p.length = x := by
  obtain ⟨t, rfl⟩ := List.isPrefixOf_iff_prefix.mp h
  rw [List.drop_left]

theorem prefix_take (p x : Str) (h : p.isPrefixOf x = true) :
    x.take p.length = p := by
  obtain ⟨t, rfl⟩ := List.isPrefixOf_iff_prefix.mp h
  rw [List.take_left]

theorem prefix_len_le (p x : Str) (h : p.isPrefixOf x = true) : p.length ≤ x.length :=
  (List.isPrefixOf_iff_prefix.mp h).length_le

theorem prefix_eq_of_len (p x : Str) (h : p.isPrefixOf x = true)
    (hl : p.length = x.length) : p = x :=
  (List.isPrefixOf_iff_prefix.mp h).eq_of_length hl

/-- The stripped line end used by `make_relative` (`line.rstrip("\n\r")`). -/
def riLwe (l : Str) : Str := pyRstripSet ['\n', '\r'] l

/-- The indent length computed by `make_relative`. -/
def riLen (l : Str) : Nat := (riLwe l).length - (pyLstrip (riLwe l)).length

/-- The indent string computed by `make_relative`. -/
def riInd (l : Str) : Str := l.take (riLen l)

/-- The relative-dent string computed by `make_relative`. -/
def riCur (m : Char) (prev l : Str) : Str :=
  if prev.length < riLen l then (riInd l).drop prev.length
  else if riLen l < prev.length then List.replicate (prev.length - riLen l) m
  else []

theorem riRelLines_cons (m : Char) (prev l : Str) (rest : List Str) :
    riRelLines m prev (l :: rest) =
      (riCur m prev l ++ '\n' :: l.drop (riLen l)) :: riRelLines m (riInd l) rest := rfl

/-- The dent string read back by `make_absolute`. -/
def riD (dent : Str) : Str := pyRstripSet ['\r', '\n'] dent

/-- The outdent test of `make_absolute`. -/
def riIsOut (m : Char) (d : Str) : Bool := match d with | c :: _ => c == m | [] => false

/-- The absolute indent reconstructed by `make_absolute` for one pair. -/
def riCurAbs (m : Char) (prev dent : Str) : Str :=
  if riIsOut m (riD dent) then prev.take (prev.length - (riD dent).length)
  else prev ++ riD dent

/-- The output line produced by `make_absolute` for one pair. -/
def riOut (m : Char) (prev dent content : Str) : Str :=
  if (pyRstripSet ['\r', '\n'] content).isEmpty then content
  else riCurAbs m prev dent ++ content

theorem riAbsLines_cons (m : Char) (prev dent content : Str) (rest : List Str) :
    riAbsLines m prev (dent :: content :: rest) =
      riOut m prev dent content :: riAbsLines m (riCurAbs m prev dent) rest := rfl

/-- Round trip of one dent: reading back the relative dent against the same
previous indent recovers the line's own indent, provided the two are
prefix-compatible. -/
theorem riCurAbs_eq (m : Char) (hmw : isPyWs m = false) (prev tw cur : Str)
    (htw : ∀ c ∈ tw, isPyWs c = true)
    (hclean : ∀ c ∈ cur, (['\r', '\n'] : List Char).contains c = false)
    (hcomp : (prev.isPrefixOf tw || tw.isPrefixOf prev) = true)
    (hcur : cur = if prev.length < tw.length then tw.drop prev.length
      else if tw.length < prev.length then List.replicate (prev.length - tw.length) m
      else []) :
    riCurAbs m prev (cur ++ ['\n']) = tw := by
  have hD : riD (cur ++ ['\n']) = cur :=
    pyRstripSet_body_nl _ _ (by decide) hclean
  rw [riCurAbs, hD]
  rcases Nat.lt_trichotomy prev.length tw.length with h | h | h
  · -- a further indent: the dent is the indent's new tail, whitespace-led
    rw [if_pos h] at hcur
    have hpre : prev.isPrefixOf tw = true := by
      simp only [Bool.or_eq_true] at hcomp
      rcases hcomp with h1 | h1
      · exact h1
      · exact absurd (prefix_len_le _ _ h1) (by omega)
    have hne : cur ≠ [] := by
      subst hcur
      have : (tw.drop prev.length).length = tw.length - prev.length := List.length_drop _ _
      intro hc
      rw [hc] at this
      simp at this
      omega
    obtain ⟨c, cs, rfl⟩ : ∃ c cs, cur = c :: cs := by
      cases cur with
      | nil => exact absurd rfl hne
      | cons c cs => exact ⟨c, cs, rfl⟩
    have hcw : isPyWs c = true := by
      refine htw c ?_
      have : c ∈ tw.drop prev.length := by rw [← hcur]; exact List.mem_cons_self c cs
      exact List.drop_subset _ _ this
    have hcm : (c == m) = false := by
      cases hb : c == m with
      | false => rfl
      | true => rw [eq_of_beq hb, hmw] at hcw; exact absurd hcw (by simp)
    have hout : riIsOut m (c :: cs) = false := hcm
    rw [hout]
    simp only [Bool.false_eq_true, if_false]
    rw [hcur]
    exact prefix_append_drop prev tw hpre
  · -- equal indents: empty dent, previous indent carried over unchanged
    rw [if_neg (by omega), if_neg (by omega)] at hcur
    subst hcur
    rw [show riIsOut m [] = false from rfl]
    simp only [Bool.false_eq_true, if_false, List.append_nil]
    simp only [Bool.or_eq_true] at hcomp
    rcases hcomp with h1 | h1
    · exact prefix_eq_of_len _ _ h1 h
    · exact (prefix_eq_of_len _ _ h1 h.symm).symm
  · -- an outdent: the dent is a run of markers of the length difference
    rw [if_neg (by omega), if_pos h] at hcur
    have hpre : tw.isPrefixOf prev = true := by
      simp only [Bool.or_eq_true] at hcomp
      rcases hcomp with h1 | h1
      · exact absurd (prefix_len_le _ _ h1) (by omega)
      · exact h1
    rcases hd : prev.length - tw.length with _ | j
    · omega
    · rw [hd, List.replicate_succ] at hcur
      subst hcur
      rw [show riIsOut m (m :: List.replicate j m) = true by simp [riIsOut]]
      simp only [if_true]
      have hlen : (m :: List.replicate j m).length = prev.length - tw.length := by
        simp [hd]
      rw [hlen, show prev.length - (prev.length - tw.length) = tw.length by omega]
      exact prefix_take tw prev hpre

/-- Analysis of one keepends line `l = b ++ e` (`e` the kept `\n`, if any):
what `make_relative` computes from it, in terms of the body `b`. -/
theorem riLine_facts (l b e : Str)
    (hlb : l = b ++ e) (he : e = ['\n'] ∨ e = [])
    (hb : ∀ c ∈ b, c ≠ '\n' ∧ c ≠ '\r') :
    riLwe l = b ∧ riLen l = (b.takeWhile isPyWs).length ∧
      riInd l = b.takeWhile isPyWs ∧ indentOfLine l = b.takeWhile isPyWs ∧
      l.drop (riLen l) = b.dropWhile isPyWs ++ e := by
  have hbc : ∀ c ∈ b, (['\n', '\r'] : List Char).contains c = false := by
    intro c hc
    simp [(hb c hc).1, (hb c hc).2]
  have hlwe : riLwe l = b := by
    rcases he with rfl | rfl
    · rw [riLwe, hlb]
      exact pyRstripSet_body_nl _ _ (by decide) hbc
    · rw [riLwe, hlb, List.append_nil]
      exact pyRstripSet_clean _ _ hbc
  have hlen : riLen l = (b.takeWhile isPyWs).length := by
    rw [riLen, hlwe, pyLstrip]
    exact takeWhile_len_eq isPyWs b
  have htwle : (b.takeWhile isPyWs).length ≤ b.length :=
    (List.takeWhile_sublist isPyWs).length_le
  have hind : riInd l = b.takeWhile isPyWs := by
    rw [riInd, hlen, hlb, List.take_append_eq_append_take,
      show (b.takeWhile isPyWs).length - b.length = 0 by omega,
      List.take_zero, List.append_nil, take_takeWhile_len]
  have hiol : indentOfLine l = b.takeWhile isPyWs := by
    rw [indentOfLine, show pyRstripSet ['\n', '\r'] l = riLwe l from rfl, hlwe]
  have hdrop : l.drop (riLen l) = b.dropWhile isPyWs ++ e := by
    rw [hlen, hlb, List.drop_append_eq_append_drop,
      show (b.takeWhile isPyWs).length - b.length = 0 by omega,
      List.drop_zero, drop_takeWhile_len]
  exact ⟨hlwe, hlen, hind, hiol, hdrop⟩

/-- The round trip `make_absolute ∘ make_relative` over well-shaped lines:
re-splitting the flattened relative text recovers the original lines, given
a non-whitespace marker, no foreign break characters, no nonempty
whitespace-only lines, and prefix-compatible consecutive indents. -/
theorem riRoundTrip (m : Char) (hmw : isPyWs m = false) :
    ∀ (lines : List Str) (prev : Str),
      chunksOK lines →
      (∀ l ∈ lines, ∀ c ∈ l, (isBreakChar c = true → c = '\n') ∧ c ≠ m) →
      (∀ l ∈ lines, pyLstrip (riLwe l) = [] → riLwe l = []) →
      indentChainB prev lines = true →
      riAbsLines m prev (pySplitKeepNl (riRelLines m prev lines).flatten) = lines
  | [], prev => by
    intro _ _ _ _
    rfl
  | l :: rest, prev => by
    intro hOK hchars hws hchain
    have hm_nl : m ≠ '\n' := by
      intro h
      rw [h] at hmw
      exact absurd hmw (by decide)
    have hm_cr : m ≠ '\r' := by
      intro h
      rw [h] at hmw
      exact absurd hmw (by decide)
    simp only [indentChainB, Bool.and_eq_true] at hchain
    obtain ⟨hcomp, hchainrest⟩ := hchain
    have hcharl := hchars l (List.mem_cons_self l rest)
    have hwsl := hws l (List.mem_cons_self l rest)
    have hcharsrest : ∀ x ∈ rest, ∀ c ∈ x, (isBreakChar c = true → c = '\n') ∧ c ≠ m :=
      fun x hx => hchars x (List.mem_cons_of_mem l hx)
    have hwsrest : ∀ x ∈ rest, pyLstrip (riLwe x) = [] → riLwe x = [] :=
      fun x hx => hws x (List.mem_cons_of_mem l hx)
    have hOKrest : chunksOK rest := by
      cases rest with
      | nil => trivial
      | cons r rest' =>
        obtain ⟨_, h2⟩ := hOK
        exact h2
    have hbody : (∃ b, l = b ++ ['\n'] ∧ ∀ c ∈ b, c ≠ '\n') ∨
        (rest = [] ∧ l ≠ [] ∧ ∃ b, l = b ∧ ∀ c ∈ b, c ≠ '\n') := by
      cases rest with
      | nil =>
        obtain ⟨hne, b, hb, hbnl⟩ := hOK
        rcases hb with hb | hb
        · exact Or.inl ⟨b, hb, hbnl⟩
        · exact Or.inr ⟨rfl, hne, b, hb, hbnl⟩
      | cons r rest' =>
        obtain ⟨⟨b, hb, hbnl⟩, _⟩ := hOK
        exact Or.inl ⟨b, hb, hbnl⟩
    -- unified body extraction: l = b ++ e with e the kept newline (or empty
    -- for an unterminated last line, which forces rest = [])
    have hmain : ∃ b e, l = b ++ e ∧ (e = ['\n'] ∨ (e = [] ∧ rest = [] ∧ l ≠ [])) ∧
        ∀ c ∈ b, c ≠ '\n' := by
      rcases hbody with ⟨b, hb, hbnl⟩ | ⟨hrest, hne, b, hb, hbnl⟩
      · exact ⟨b, ['\n'], hb, Or.inl rfl, hbnl⟩
      · exact ⟨b, [], by rw [hb, List.append_nil], Or.inr ⟨rfl, hrest, hne⟩, hbnl⟩
    obtain ⟨b, e, hlb, he, hbnl⟩ := hmain
    have hbNR : ∀ c ∈ b, c ≠ '\n' ∧ c ≠ '\r' := by
      intro c hc
      have hcl : c ∈ l := by rw [hlb]; exact List.mem_append_left _ hc
      obtain ⟨hbrk, _⟩ := hcharl c hcl
      refine ⟨hbnl c hc, ?_⟩
      intro hr
      subst hr
      exact absurd (hbrk (by decide)) (by decide)
    obtain ⟨hlwe, hlen, hind, hiol, hdrop⟩ :=
      riLine_facts l b e hlb (he.imp (fun h => h) (fun h => h.1)) hbNR
    have htw : ∀ c ∈ b.takeWhile isPyWs, isPyWs c = true :=
      fun c hc => List.mem_takeWhile_imp hc
    have hdwsub : ∀ c ∈ b.dropWhile isPyWs, c ≠ '\n' ∧ c ≠ '\r' :=
      fun c hc => hbNR c (List.dropWhile_subset isPyWs hc)
    have hcur_clean : ∀ c ∈ riCur m prev l, c ≠ '\n' ∧ c ≠ '\r' := by
      intro c hc
      rw [riCur] at hc
      split at hc
      · have h1 : c ∈ riInd l := List.drop_subset _ _ hc
        rw [hind] at h1
        exact hbNR c (List.takeWhile_subset isPyWs h1)
      · split at hc
        · rw [List.eq_of_mem_replicate hc]
          exact ⟨hm_nl, hm_cr⟩
        · exact absurd hc (List.not_mem_nil c)
    have hcurdef : riCur m prev l =
        if prev.length < (b.takeWhile isPyWs).length then
          (b.takeWhile isPyWs).drop prev.length
        else if (b.takeWhile isPyWs).length < prev.length then
          List.replicate (prev.length - (b.takeWhile isPyWs).length) m
        else [] := by
      rw [riCur, hlen, hind]
    rw [hiol] at hcomp hchainrest
    have habs : riCurAbs m prev (riCur m prev l ++ ['\n']) = b.takeWhile isPyWs := by
      refine riCurAbs_eq m hmw prev _ _ htw ?_ hcomp hcurdef
      intro c hc
      simp [(hcur_clean c hc).1, (hcur_clean c hc).2]
    -- now rewrite the goal step by step
    rw [riRelLines_cons, hind, List.flatten_cons, List.append_assoc, List.cons_append,
      skn_break (riCur m prev l) _ (fun c hc => (hcur_clean c hc).1), hdrop]
    rcases he with rfl | ⟨rfl, rfl, hlne⟩
    · -- the line carries its newline: its content is one further kept line
      rw [List.append_assoc, List.singleton_append,
        skn_break (b.dropWhile isPyWs) _ (fun c hc => (hdwsub c hc).1),
        riAbsLines_cons, habs]
      have hout : riOut m prev (riCur m prev l ++ ['\n'])
          (b.dropWhile isPyWs ++ ['\n']) = l := by
        rw [riOut]
        have hrs : pyRstripSet ['\r', '\n'] (b.dropWhile isPyWs ++ ['\n']) =
            b.dropWhile isPyWs := by
          refine pyRstripSet_body_nl _ _ (by decide) ?_
          intro c hc
          simp [(hdwsub c hc).1, (hdwsub c hc).2]
        rw [hrs]
        by_cases hdw : b.dropWhile isPyWs = []
        · have hb0 : b = [] := by
            have := hwsl
            rw [hlwe] at this
            exact this hdw
          rw [if_pos (by simp [hdw]), hlb, hb0]
          simp
        · rw [if_neg (by simp [hdw]), habs, ← List.append_assoc,
            List.takeWhile_append_dropWhile, ← hlb]
      rw [hout,
        riRoundTrip m hmw rest (b.takeWhile isPyWs) hOKrest hcharsrest hwsrest hchainrest]
    · -- unterminated last line: no trailing newline, nothing follows
      have hdwne : b.dropWhile isPyWs ≠ [] := by
        intro hdw
        have hb0 : b = [] := by
          have := hwsl
          rw [hlwe] at this
          exact this hdw
        rw [hlb, hb0] at hlne
        exact hlne rfl
      rw [show (riRelLines m (b.takeWhile isPyWs) []).flatten = [] from rfl,
        List.append_nil, List.append_nil,
        skn_single _ hdwne (fun c hc => (hdwsub c hc).1),
        riAbsLines_cons, habs]
      have hout : riOut m prev (riCur m prev l ++ ['\n']) (b.dropWhile isPyWs) = l := by
        rw [riOut]
        have hrs : pyRstripSet ['\r', '\n'] (b.dropWhile isPyWs) = b.dropWhile isPyWs := by
          refine pyRstripSet_clean _ _ ?_
          intro c hc
          simp [(hdwsub c hc).1, (hdwsub c hc).2]
        rw [hrs, if_neg (by simp [hdwne]), habs, List.takeWhile_append_dropWhile, hlb,
          List.append_nil]
      rw [hout]
      rfl

/-- Claim C2: for marker-free text the round trip
`make_absolute(make_relative(text)) == text` — amended.  The identity needs,
beyond marker-freeness: a non-whitespace marker, `\n` as the only line
break character, no nonempty whitespace-only lines, and prefix-compatible
indents on consecutive lines (the relative encoding transfers indent
*lengths*, re-using the previous line's indent characters, and blank
content lines are never re-indented — see `C2_counterexample`). -/
theorem C2_round_trip_amended (m : Char) (t : Str)
    (hmw : isPyWs m = false)
    (hbreak : ∀ c ∈ t, isBreakChar c = true → c = '\n')
    (hm : ∀ c ∈ t, c ≠ m)
    (hws : ∀ l ∈ pySplitKeepNl t, pyLstrip (riLwe l) = [] → riLwe l = [])
    (hchain : indentChainB [] (pySplitKeepNl t) = true) :
    (make_relative m t).bind (make_absolute m) = some t := by
  have hmaster := riRoundTrip m hmw (pySplitKeepNl t) [] (skn_chunksOK t)
    (fun l hl c hc => ⟨hbreak c (skn_chars t l hl c hc), hm c (skn_chars t l hl c hc)⟩)
    hws hchain
  have hcont : t.contains m = false := by
    cases h : t.contains m with
    | false => rfl
    | true =>
      have hmem : m ∈ t := by simpa using h
      exact absurd rfl (hm m hmem)
  rw [make_relative, hcont]
  simp only [Bool.false_eq_true, if_false, Option.some_bind]
  rw [make_absolute]
  rw [hmaster, skn_flatten, hcont]
  simp

theorem C2_witness :
    (make_relative '←' "  a\n\nb\n".data).bind (make_absolute '←') = some "  a\n\nb\n".data :=
  C2_round_trip_amended '←' "  a\n\nb\n".data (by decide) (by decide) (by decide) (by decide)
    (by decide)

/-!
## Claim C6 — the fuzzy window selection order
-/

theorem ratio_trans_core (p1 p2 q1 q2 r1 r2 : Nat) (hp : 0 < p2) (_hq : 0 < q2)
    (h1 : p1 * q2 ≤ q1 * p2) (h2 : q1 * r2 < r1 * q2) : p1 * r2 < r1 * p2 := by
  have ha : p1 * q2 * r2 ≤ q1 * p2 * r2 := mul_le_mul_of_nonneg_right h1 (Nat.zero_le r2)
  have hb : q1 * r2 * p2 < r1 * q2 * p2 := mul_lt_mul_of_pos_right h2 hp
  have hc : q2 * (p1 * r2) < q2 * (r1 * p2) := by
    calc q2 * (p1 * r2) = p1 * q2 * r2 := by ring
    _ ≤ q1 * p2 * r2 := ha
    _ = q1 * r2 * p2 := by ring
    _ < r1 * q2 * p2 := hb
    _ = q2 * (r1 * p2) := by ring
  exact Nat.lt_of_mul_lt_mul_left hc

theorem ratioLe_refl (p : Nat × Nat) : ratioLe p p = true := by
  simp [ratioLe, Nat.mul_comm]

theorem ratioLe_of_lt (p q : Nat × Nat) (h : ratioLt p q = true) : ratioLe p q = true := by
  simp only [ratioLt, ratioLe, decide_eq_true_eq] at *
  omega

theorem ratioLe_of_not_lt (p q : Nat × Nat) (h : ratioLt p q = false) :
    ratioLe q p = true := by
  simp only [ratioLt, ratioLe, decide_eq_false_iff_not, decide_eq_true_eq] at *
  omega

theorem ratio_lt_of_le_of_lt (p q r : Nat × Nat) (hp : 0 < p.2) (hq : 0 < q.2)
    (h1 : ratioLe p q = true) (h2 : ratioLt q r = true) : ratioLt p r = true := by
  simp only [ratioLt, ratioLe, decide_eq_true_eq] at *
  exact ratio_trans_core p.1 p.2 q.1 q.2 r.1 r.2 hp hq h1 h2

theorem ratio_lt_trans (p q r : Nat × Nat) (hp : 0 < p.2) (hq : 0 < q.2)
    (h1 : ratioLt p q = true) (h2 : ratioLt q r = true) : ratioLt p r = true :=
  ratio_lt_of_le_of_lt p q r hp hq (ratioLe_of_lt p q h1) h2

/-- The running fold of `fuzzy_search_and_replace`, from an arbitrary state:
either the state never improves (and every scanned similarity is bounded by
it), or the final winner is the first element of a maximal-similarity run —
every earlier element is strictly smaller, every later one no larger. -/
theorem bestFold_go (sim : α → Nat × Nat) :
    ∀ (l : List α) (best : Nat × Nat) (bw : Option α),
      (∀ a ∈ l, 0 < (sim a).2) → 0 < best.2 →
      ((l.foldl (fun st w => if ratioLt st.1 (sim w) then (sim w, some w) else st)
          (best, bw)).2 = bw ∧
        (l.foldl (fun st w => if ratioLt st.1 (sim w) then (sim w, some w) else st)
          (best, bw)).1 = best ∧
        (∀ a ∈ l, ratioLe (sim a) best = true)) ∨
      (∃ pre w post, l = pre ++ w :: post ∧
        (l.foldl (fun st w => if ratioLt st.1 (sim w) then (sim w, some w) else st)
          (best, bw)).2 = some w ∧
        (l.foldl (fun st w => if ratioLt st.1 (sim w) then (sim w, some w) else st)
          (best, bw)).1 = sim w ∧
        ratioLt best (sim w) = true ∧
        (∀ x ∈ pre, ratioLt (sim x) (sim w) = true) ∧
        (∀ x ∈ post, ratioLe (sim x) (sim w) = true))
  | [], best, bw => by
    intro _ _
    exact Or.inl ⟨rfl, rfl, by simp⟩
  | a :: rest, best, bw => by
    intro hpos hbest
    have hposr : ∀ x ∈ rest, 0 < (sim x).2 :=
      fun x hx => hpos x (List.mem_cons_of_mem a hx)
    have hposa : 0 < (sim a).2 := hpos a (List.mem_cons_self a rest)
    rw [List.foldl_cons]
    by_cases h : ratioLt best (sim a) = true
    · rw [if_pos h]
      rcases bestFold_go sim rest (sim a) (some a) hposr hposa with
        ⟨h2, h1, hall⟩ | ⟨pre', w', post', hrest, h2, h1, hlt, hpre, hpost⟩
      · refine Or.inr ⟨[], a, rest, rfl, h2, h1, h, ?_, hall⟩
        intro x hx
        exact absurd hx (List.not_mem_nil x)
      · refine Or.inr ⟨a :: pre', w', post', by simp [hrest], h2, h1, ?_, ?_, hpost⟩
        · exact ratio_lt_trans best (sim a) (sim w') hbest hposa h hlt
        · intro x hx
          rcases List.mem_cons.mp hx with rfl | hx
          · exact hlt
          · exact hpre x hx
    · rw [if_neg (by simp [Bool.not_eq_true] at h; simp [h])]
      have hle_a : ratioLe (sim a) best = true :=
        ratioLe_of_not_lt best (sim a) (Bool.not_eq_true _ ▸ h)
      rcases bestFold_go sim rest best bw hposr hbest with
        ⟨h2, h1, hall⟩ | ⟨pre', w', post', hrest, h2, h1, hlt, hpre, hpost⟩
      · refine Or.inl ⟨h2, h1, ?_⟩
        intro x hx
        rcases List.mem_cons.mp hx with rfl | hx
        · exact hle_a
        · exact hall x hx
      · refine Or.inr ⟨a :: pre', w', post', by simp [hrest], h2, h1, hlt, ?_, hpost⟩
        intro x hx
        rcases List.mem_cons.mp hx with rfl | hx
        · exact ratio_lt_of_le_of_lt (sim x) best (sim w') (hpos x (List.mem_cons_self x _)) hbest hle_a hlt
        · exact hpre x hx

/-- difflib ratios always carry a positive denominator. -/
theorem seqRatio_den_pos (a b : Str) : 0 < (seqRatio a b).2 := by
  rw [seqRatio]
  by_cases h : a.length + b.length = 0
  · simp [h]
  · simp [h]
    omega

/-- The best-window state computed inside `fuzzy_search_and_replace`. -/
def fuzzyBest (s o : Str) : (Nat × Nat) × Option (Nat × Nat) :=
  bestFold (windowSim s (pySplitlines o))
    (fuzzyWindows (pySplitlines s).length (pySplitlines o).length)

theorem fuzzy_eq_best (s r o : Str) (tn td : Nat) :
    fuzzy_search_and_replace s r o tn td =
      (if ratioLt (fuzzyBest s o).1 (tn, td) then none
       else some (pyJoinNl
        (((pySplitlines o).take (pySliceIdx (pySplitlines o).length
            (match (fuzzyBest s o).2 with | none => -1 | some w => w.2))) ++
          pySplitlines r ++
          ((pySplitlines o).drop (pySliceIdx (pySplitlines o).length
            (match (fuzzyBest s o).2 with | none => -1 | some w => w.2 + w.1)))))) := rfl

/-- Windows scanned by the fuzzy strategy have positive length and fit the
original's line list. -/
theorem fuzzyWindows_mem (n m : Nat) (w : Nat × Nat) (h : w ∈ fuzzyWindows n m) :
    0 < w.1 ∧ w.2 + w.1 ≤ m := by
  rw [fuzzyWindows] at h
  simp only [List.mem_flatMap, List.mem_map] at h
  obtain ⟨L, hL, i, hi, hw⟩ := h
  have hL1 : fuzzyMinLen n ≤ L := by
    rw [fuzzyCandidateLengths] at hL
    exact (List.mem_range'_1.mp hL).1
  have hLpos : 0 < L := le_trans (le_max_left 1 _) hL1
  by_cases hm : L ≤ m
  · rw [if_pos hm] at hi
    have : i < m - L + 1 := List.mem_range.mp hi
    rw [← hw]
    exact ⟨hLpos, by omega⟩
  · rw [if_neg hm] at hi
    exact absurd hi (List.not_mem_nil i)

/-- The scan order claimed by the spec: smallest start first, then smallest
length (the source's nested loops actually iterate length first). -/
def fuzzyWindowsSpec (n m : Nat) : List (Nat × Nat) :=
  (List.range m).flatMap fun i =>
    (fuzzyCandidateLengths n m).filterMap fun L =>
      if i + L ≤ m then some (L, i) else none

/-- `fuzzy_search_and_replace` as the claim reads it: same windows, same
strict-improvement fold, but ties resolved in start-then-length order. -/
def fuzzy_search_and_replace_spec (s r o : Str) (tn td : Nat) : Option Str :=
  let searchLines := pySplitlines s
  let origLines := pySplitlines o
  let (best, bestW) :=
    bestFold (windowSim s origLines) (fuzzyWindowsSpec searchLines.length origLines.length)
  let bestStart : Int := match bestW with | none => -1 | some w => w.2
  let bestEnd : Int := match bestW with | none => -1 | some w => w.2 + w.1
  if ratioLt best (tn, td) then none
  else some (pyJoinNl
    ((origLines.take (pySliceIdx origLines.length bestStart)) ++
      pySplitlines r ++
      (origLines.drop (pySliceIdx origLines.length bestEnd))))

/-- C6, counterexample: searching `"ab\ncd"` in `"ab\ncx\nabcde"` at
threshold `0.8`, the one-line window at start 2 (`"abcde"`, ratio `8/10`)
ties with the two-line window at start 0 (`"ab\ncx"`, ratio `8/10`).  The
claimed start-then-length order would pick start 0; the source's
length-then-start loops pick the shorter window at start 2. -/
theorem C6_counterexample :
    windowSim "ab\ncd".data (pySplitlines "ab\ncx\nabcde".data) (1, 2) = (8, 10) ∧
    windowSim "ab\ncd".data (pySplitlines "ab\ncx\nabcde".data) (2, 0) = (8, 10) ∧
    fuzzy_search_and_replace "ab\ncd".data "R".data "ab\ncx\nabcde".data 8 10 =
      some "ab\ncx\nR".data ∧
    fuzzy_search_and_replace_spec "ab\ncd".data "R".data "ab\ncx\nabcde".data 8 10 =
      some "R\nabcde".data ∧
    fuzzy_search_and_replace "ab\ncd".data "R".data "ab\ncx\nabcde".data 8 10 ≠
      fuzzy_search_and_replace_spec "ab\ncd".data "R".data "ab\ncx\nabcde".data 8 10 := by
  decide

/-- Claim C6 — amended.  `fuzzy_search_and_replace` tracks the single
highest-ratio window with a strict-improvement update, so it keeps the
*first* maximal window in its scan order, which is smallest **length**
first, then smallest start (the outer loop is over lengths — not
start-then-length as claimed; see `C6_counterexample`).  It returns `None`
iff the best ratio is below the threshold; otherwise it splices the
replacement lines over the winning window. -/
theorem C6_fuzzy_first_max (s r o : Str) (tn td : Nat) :
    (∀ w ∈ fuzzyWindows (pySplitlines s).length (pySplitlines o).length,
        ratioLe (windowSim s (pySplitlines o) w) (fuzzyBest s o).1 = true) ∧
    (fuzzy_search_and_replace s r o tn td = none ↔
        ratioLt (fuzzyBest s o).1 (tn, td) = true) ∧
    ((fuzzyBest s o).2 = none →
      (fuzzyBest s o).1 = (0, 1) ∧
        ∀ w ∈ fuzzyWindows (pySplitlines s).length (pySplitlines o).length,
          (windowSim s (pySplitlines o) w).1 = 0) ∧
    (∀ w, (fuzzyBest s o).2 = some w → ∃ pre post,
        fuzzyWindows (pySplitlines s).length (pySplitlines o).length =
          pre ++ w :: post ∧
        windowSim s (pySplitlines o) w = (fuzzyBest s o).1 ∧
        (∀ x ∈ pre, ratioLt (windowSim s (pySplitlines o) x)
            (windowSim s (pySplitlines o) w) = true) ∧
        (∀ x ∈ post, ratioLe (windowSim s (pySplitlines o) x)
            (windowSim s (pySplitlines o) w) = true) ∧
        (ratioLt (fuzzyBest s o).1 (tn, td) = false →
          fuzzy_search_and_replace s r o tn td =
            some (pyJoinNl ((pySplitlines o).take w.2 ++ pySplitlines r ++
              (pySplitlines o).drop (w.2 + w.1))))) := by
  have hgo := bestFold_go (windowSim s (pySplitlines o))
    (fuzzyWindows (pySplitlines s).length (pySplitlines o).length) (0, 1) none
    (fun a _ => seqRatio_den_pos _ _) (by norm_num)
  have hiff : fuzzy_search_and_replace s r o tn td = none ↔
      ratioLt (fuzzyBest s o).1 (tn, td) = true := by
    rw [fuzzy_eq_best]
    by_cases hth : ratioLt (fuzzyBest s o).1 (tn, td) = true
    · simp [hth]
    · simp [hth]
  rcases hgo with ⟨h2, h1, hall⟩ | ⟨pre, w0, post, hsplit, h2, h1, hlt0, hpre, hpost⟩
  · have h1' : (fuzzyBest s o).1 = (0, 1) := h1
    have h2' : (fuzzyBest s o).2 = none := h2
    refine ⟨?_, hiff, ?_, ?_⟩
    · intro w hw
      rw [h1']
      exact hall w hw
    · intro _
      refine ⟨h1', ?_⟩
      intro w hw
      have hle := hall w hw
      simp only [ratioLe, decide_eq_true_eq] at hle
      omega
    · intro w hw
      rw [h2'] at hw
      exact absurd hw (by simp)
  · have h1' : (fuzzyBest s o).1 = windowSim s (pySplitlines o) w0 := h1
    have h2' : (fuzzyBest s o).2 = some w0 := h2
    refine ⟨?_, hiff, ?_, ?_⟩
    · intro w hw
      rw [h1']
      rw [hsplit] at hw
      rcases List.mem_append.mp hw with hw | hw
      · exact ratioLe_of_lt _ _ (hpre w hw)
      · rcases List.mem_cons.mp hw with rfl | hw
        · exact ratioLe_refl _
        · exact hpost w hw
    · intro hn
      rw [h2'] at hn
      exact absurd hn (by simp)
    · intro w hw
      have hww : w = w0 := by
        rw [h2'] at hw
        exact (Option.some.inj hw).symm
      subst hww
      refine ⟨pre, post, hsplit, h1'.symm, hpre, hpost, ?_⟩
      intro hth
      obtain ⟨hpos1, hle⟩ := fuzzyWindows_mem _ _ w
        (by rw [hsplit]; exact List.mem_append_right _ (List.mem_cons_self _ _))
      rw [fuzzy_eq_best, if_neg (by simp [hth]), h2']
      show some (pyJoinNl ((pySplitlines o).take
          (pySliceIdx (pySplitlines o).length (w.2 : Int)) ++ pySplitlines r ++
          (pySplitlines o).drop
            (pySliceIdx (pySplitlines o).length ((w.2 : Int) + (w.1 : Int))))) = _
      have hs1 : pySliceIdx (pySplitlines o).length (w.2 : Int) = w.2 := by
        rw [pySliceIdx, if_neg (by omega)]
        simp only [Int.toNat_natCast]
        omega
      have hs2 : pySliceIdx (pySplitlines o).length ((w.2 : Int) + (w.1 : Int)) =
          w.2 + w.1 := by
        rw [pySliceIdx, if_neg (by omega)]
        rw [show ((w.2 : Int) + (w.1 : Int)).toNat = w.2 + w.1 by omega]
        omega
      rw [hs1, hs2]

theorem C6_witness :
    fuzzy_search_and_replace "ab\ncd".data "R".data "ab\ncx\nabcde".data 8 10 ≠ none := by
  have h := C6_fuzzy_first_max "ab\ncd".data "R".data "ab\ncx\nabcde".data 8 10
  intro hn
  exact absurd (h.2.1.mp hn) (by decide)
